import Mathlib

/-!
Verification of the stroboscope collector's query compiler and scheduler.

Each Python function of the source is shallowly embedded as an executable
Lean definition; iteration of dictionaries is modelled by association
lists in insertion order, Python exceptions by Except, and unbounded
while-loops by fuel that is proved (or chosen) sufficient.

File layout: all definitions first, then the supporting lemmas and the
claim theorems.
-/

namespace Strb

/-! ## Association-list helpers (model of Python dicts) -/

/-- Lookup of a key in an association list (first matching entry). -/
def alookup {α β : Type} [DecidableEq α] : List (α × β) → α → Option β
  | [], _ => none
  | (a, b) :: t, k => if a = k then some b else alookup t k

/-- Dict assignment d[k] = v: replace the first entry with the key,
else append a fresh entry at the end. -/
def aset {α β : Type} [DecidableEq α] : List (α × β) → α → β → List (α × β)
  | [], k, v => [(k, v)]
  | (a, b) :: t, k, v =>
    if a = k then (a, v) :: t else (a, b) :: aset t k v

/-- The keys of an association list. -/
def akeys {α β : Type} (l : List (α × β)) : List α := l.map Prod.fst

/-! ## First-fit-decreasing scheduler
Embeds stroboscope/algorithms/schedule/first_fit.py.
Queries are represented by their integral cost; a slot is a pair
(list of query costs, consumed bandwidth). -/

/-- The scheduling budget fields used by the schedulers:
using (Mbps per slot) and max_slots. -/
structure Budget where
  usingBw : Nat
  maxSlots : Nat
deriving Repr, DecidableEq

/-- The for-loop over existing slots: place cost in the first slot whose
remaining budget fits it, returning none when no slot fits
(the for-else fallthrough). -/
def placeFirstFit (maxBw cost : Nat) :
    List (List Nat × Nat) → Option (List (List Nat × Nat))
  | [] => none
  | (qs, bw) :: rest =>
    if bw + cost ≤ maxBw then some ((qs ++ [cost], bw + cost) :: rest)
    else
      match placeFirstFit maxBw cost rest with
      | some rest2 => some ((qs, bw) :: rest2)
      | none => none

/-- The while-loop of find_first_fit_estimation: left is the list of
still-unplaced costs in processing order (descending). -/
def ffdLoop (budget : Budget) :
    List Nat → List (List Nat × Nat) → Except Unit (List (List Nat × Nat))
  | [], slots => .ok slots
  | cost :: left, slots =>
    match placeFirstFit budget.usingBw cost slots with
    | some slots2 => ffdLoop budget left slots2
    | none =>
      if budget.maxSlots ≤ slots.length then .error ()
      else ffdLoop budget left (slots ++ [([cost], cost)])

/-- find_first_fit_estimation: sort the costs ascending, pop from the end
(hence process in descending order), starting from one empty slot;
the error value stands for the NoSchedule exception. -/
def find_first_fit_estimation (queries : List Nat) (budget : Budget) :
    Except Unit (List (List Nat)) :=
  match ffdLoop budget (List.insertionSort (· ≤ ·) queries).reverse [([], 0)] with
  | .ok slots => .ok (slots.map Prod.fst)
  | .error e => .error e

/-- Slot invariant: the recorded bandwidth is the sum of the slot's costs
and stays within the per-slot budget. -/
def SlotsInv (maxBw : Nat) (slots : List (List Nat × Nat)) : Prop :=
  ∀ p ∈ slots, (p.1.sum = p.2 ∧ p.2 ≤ maxBw)

/-! ## Schedule replication
Embeds ScheduleReplication.solve from
stroboscope/algorithms/schedule/replication.py.  Queries are opaque
identifiers (Nat).  The error value stands for the ZeroDivisionError
raised when the filtered minimum schedule is empty. -/

/-- ScheduleReplication.solve: filter out empty slots, replicate the
minimum schedule floor(max_slots / len) times (at least once) and pad
with empty slots up to max_slots. -/
def schedule_replication_solve (schedule : List (List Nat)) (budget : Budget) :
    Except Unit (List (List Nat)) :=
  let minSched := schedule.filter (fun s => !s.isEmpty)
  if minSched.length = 0 then .error ()
  else
    let widen := max 1 (budget.maxSlots / minSched.length)
    let sched := (List.replicate widen minSched).flatten
    let leftovers := budget.maxSlots - sched.length
    .ok (sched ++ List.replicate leftovers [])

/-! ## NetDB.usage_prediction
Embeds stroboscope/network_database.py, NetDB.usage_prediction.  The
per-prefix history is a list of (campaign index, bandwidth) pairs;
bandwidths are integers. -/

/-- The NetDB fields consumed by usage_prediction. -/
structure NetDBu where
  maxBw : Int
  pastMeasurements : List (String × List (Nat × Int))

/-- netflow_estimation always raises NoNetFlowRecords in the source. -/
def netflow_estimation (db : NetDBu) (pfx : String) : Except Unit Int :=
  .error ()

/-- usage_prediction: the max of the recorded bandwidths for the prefix
(Python max raises ValueError on an empty history, modelled as the
error case), falling back to NetFlow and then max_bw on a missing key,
clamped from above by max_bw.  The campaign-number argument is unused,
as in the source. -/
def usage_prediction (db : NetDBu) (pfx : String) (campaignNumber : Nat) :
    Except Unit Int :=
  match alookup db.pastMeasurements pfx with
  | none =>
    let value :=
      match netflow_estimation db pfx with
      | .ok v => v
      | .error _ => db.maxBw
    if value > db.maxBw then .ok db.maxBw else .ok value
  | some [] => .error ()
  | some (m :: rest) =>
    let value := (rest.map Prod.snd).foldl max m.2
    if value > db.maxBw then .ok db.maxBw else .ok value

/-! ## Region resolution
Embeds NetDB.resolve_region from stroboscope/network_database.py.  The
database is reduced to the two graph facts the function reads: the
egress list and the cached SPT map (a total function; the source would
raise KeyError on absent keys, which the claims never exercise).
The outer Option is the Python return value: the source never produces
None, it returns the (possibly empty) list of paths. -/

/-- The NetDB fields consumed by resolve_region. -/
structure NetDBr where
  egresses : List String
  spt : String → String → List (List String)

/-- The region wildcard token. -/
def ARROW : String := "->"

/-- Extend one path with every SPT path from its last hop to each
terminal: the first extension extends the path in place, the remaining
ones become fresh sibling paths (returned second).  An empty extension
list makes the Python next() call raise StopIteration (the error). -/
def extendOnePath (spt : String → String → List (List String))
    (terminals : List String) (p : List String) :
    Except Unit (List String × List (List String)) :=
  let exts :=
    (terminals.map (fun t => (spt (p.getLastD ("")) t).map (fun subp => subp.drop 1))).flatten
  match exts with
  | [] => .error ()
  | first :: others => .ok (p ++ first, others.map (fun c => p ++ c))

/-- The arrow-handling body: extend every current path towards the
terminals, then append all fresh sibling paths after the originals. -/
def resolveArrowStep (spt : String → String → List (List String))
    (terminals : List String) :
    List (List String) → Except Unit (List (List String) × List (List String))
  | [] => .ok ([], [])
  | p :: ps => do
    let (p2, fresh) ← extendOnePath spt terminals p
    let (ps2, fresh2) ← resolveArrowStep spt terminals ps
    .ok (p2 :: ps2, fresh ++ fresh2)

/-- The for-loop over the region tokens after the head was consumed.
The inner Python while-loop that eats a run of consecutive arrows is
unrolled one arrow at a time; a trailing arrow run targets the
egresses and ends the walk (StopIteration ends the for-loop). -/
def resolveLoop (db : NetDBr) :
    List String → List (List String) → Except Unit (List (List String))
  | [], paths => .ok paths
  | hop :: [], paths =>
    if hop ≠ ARROW then .ok (paths.map (fun p => p ++ [hop]))
    else do
      let (paths2, fresh) ← resolveArrowStep db.spt db.egresses paths
      .ok (paths2 ++ fresh)
  | hop :: t :: rest2, paths =>
    if hop ≠ ARROW then
      resolveLoop db (t :: rest2) (paths.map (fun p => p ++ [hop]))
    else if t = ARROW then
      resolveLoop db (t :: rest2) paths
    else do
      let (paths2, fresh) ← resolveArrowStep db.spt [t] paths
      resolveLoop db rest2 (paths2 ++ fresh)

/-- NetDB.resolve_region: an empty region is returned unchanged; a
leading arrow seeds one single-node path per egress, otherwise the head
becomes the single seed path; then the token walk expands every arrow
run against the SPTs (or the egresses for a trailing arrow). -/
def resolve_region (db : NetDBr) (region : List String) :
    Except Unit (Option (List (List String))) :=
  match region with
  | [] => .ok (some [])
  | head :: rest =>
    let paths := if head = ARROW then db.egresses.map (fun e => [e]) else [[head]]
    let toks := if head = ARROW then head :: rest else rest
    match resolveLoop db toks paths with
    | .ok paths2 => .ok (some paths2)
    | .error e => .error e

/-! ## Directed graphs (model of networkx DiGraph)
Nodes are router names; adjacency iteration order is the edge-insertion
order, as in the source fixtures. -/

/-- A directed graph with its registered egresses (NetGraph). -/
structure DiGraph where
  nodesL : List String
  edgesL : List (String × String)
  egresses : List String
deriving Repr, DecidableEq

/-- Successor iteration g[v] / g.neighbors_iter(v). -/
def DiGraph.succ (g : DiGraph) (v : String) : List String :=
  (g.edgesL.filter (fun e => e.1 = v)).map Prod.snd

/-- g.has_edge(u, v). -/
def DiGraph.hasEdge (g : DiGraph) (u v : String) : Bool :=
  g.edgesL.contains (u, v)

/-! ## Key-point sampling
Embeds stroboscope/algorithms/key_points.py (the exhaustive
find_key_points algorithm, KPS level 1). -/

/-- check_graph_supports_path: every consecutive pair of the path is a
directed edge of the graph (else the source raises MissingEdge). -/
def check_graph_supports_path (g : DiGraph) (path : List String) : Bool :=
  (path.zip path.tail).all (fun e => g.hasEdge e.1 e.2)

/-- The default solution returned by _precond for paths of length at
most 2: [(h, 1) for h in path]. -/
def keypointDefault (p : List String) : List (String × Int) :=
  p.map (fun h => (h, 1))

/-- _all_kp_possible: all ordered decompositions of the path into
overlapping sub-segments of length at least 2.  The fuel is the path
length, which bounds the recursion depth. -/
def allKpAux : Nat → List String → List (List (List String))
  | 0, _ => [[]]
  | fuel + 1, l =>
    if l.length < 2 then [[]]
    else
      ((List.range' 2 (l.length - 1)).map (fun i =>
        (allKpAux fuel (l.drop (i - 1))).map (fun p => l.take i :: p))).flatten

/-- _all_kp_possible at its natural fuel. -/
def all_kp_possible (l : List String) : List (List (List String)) :=
  allKpAux l.length l

/-- _extract_keypoints: one (start, index gap) pair per segment, plus
the final (last hop, 0) entry.  Gaps use python list.index, i.e. the
position of the first occurrence. -/
def extract_keypoints (paths : List (List String)) (originalPath : List String) :
    List (String × Int) :=
  (paths.map (fun p =>
    (p.headD (""),
      (originalPath.indexOf (p.getLastD ("")) : Int)
        - (originalPath.indexOf (p.headD ("")) : Int)))) ++
    [(originalPath.getLastD (""), 0)]

/-- The suffix of a list strictly after the first occurrence of dst:
what remains of a python iterator after a successful membership test. -/
def dropThroughDst (dst : String) : List String → List String
  | [] => []
  | c :: rest => if c = dst then rest else dropThroughDst dst rest

/-- The while-loop of _paths_for_len: an explicit DFS over a stack of
iterators, counting simple paths of exactly the given edge length and
stopping at 2.  The fuel is chosen large enough for the concrete
inputs evaluated here; the acceptance theorems do not depend on the
value this function returns. -/
def pathsForLenLoop (g : DiGraph) (dst : String) (l : Nat) :
    Nat → List (List String) → List String → Nat → Nat
  | 0, _, _, cnt => cnt
  | fuel + 1, stack, visited, cnt =>
    match stack with
    | [] => cnt
    | children :: stackRest =>
      if 2 ≤ cnt then cnt
      else
        match children with
        | [] => pathsForLenLoop g dst l fuel stackRest visited.dropLast cnt
        | child :: childrenRest =>
          if 0 < l - visited.length then
            if child ∉ visited ∧ child ≠ dst then
              pathsForLenLoop g dst l fuel
                (g.succ child :: childrenRest :: stackRest)
                (visited ++ [child]) cnt
            else
              pathsForLenLoop g dst l fuel (childrenRest :: stackRest) visited cnt
          else
            if child = dst then
              pathsForLenLoop g dst l fuel (childrenRest :: stackRest) visited
                (cnt + 1)
            else if childrenRest.contains dst then
              pathsForLenLoop g dst l fuel
                (dropThroughDst dst childrenRest :: stackRest) visited (cnt + 1)
            else
              pathsForLenLoop g dst l fuel ([] :: stackRest) visited cnt

/-- _paths_for_len: whether there are fewer than 2 simple paths of
exactly l edges from src to dst. -/
def paths_for_len (g : DiGraph) (src dst : String) (l : Nat) : Bool :=
  pathsForLenLoop g dst l ((g.nodesL.length + g.edgesL.length + 2) ^ (l + 2))
    [g.succ src] [src] 0 < 2

/-- Insertion of one element into a sorted list under a boolean order. -/
def insertLe {α : Type} (le : α → α → Bool) (x : α) : List α → List α
  | [] => [x]
  | y :: ys => if le x y then x :: y :: ys else y :: insertLe le x ys

/-- Stable insertion sort under a boolean order (python sorted). -/
def sortByLe {α : Type} (le : α → α → Bool) : List α → List α
  | [] => []
  | x :: xs => insertLe le x (sortByLe le xs)

/-- Python list comparison: strict lexicographic order lifted from an
element order. -/
def listLtBy {α : Type} (lt : α → α → Bool) (eqb : α → α → Bool) :
    List α → List α → Bool
  | [], [] => false
  | [], _ :: _ => true
  | _ :: _, [] => false
  | a :: as2, b :: bs =>
    if lt a b then true
    else if eqb a b then listLtBy lt eqb as2 bs
    else false

/-- Python string comparison. -/
def strLt (a b : String) : Bool := decide (a < b)

/-- Python comparison of segment decompositions (lists of paths). -/
def kpsetLt : List (List String) → List (List String) → Bool :=
  listLtBy (listLtBy strLt (· == ·)) (· == ·)

/-- Python comparison of (len(kpset), kpset) sort keys. -/
def kpPairLe (x y : Nat × List (List String)) : Bool :=
  decide (x.1 < y.1) || (x.1 == y.1 && (kpsetLt x.2 y.2 || x.2 == y.2))

/-- The inner for-loop over the segments of one candidate
decomposition: returns acceptance together with the updated memo and
reject caches. -/
def checkSegs (g : DiGraph) :
    List (List String) → List (String × String) → List (String × String) →
    (Bool × List (String × String) × List (String × String))
  | [], memo, reject => (true, memo, reject)
  | p :: ps, memo, reject =>
    let endp := (p.headD (""), p.getLastD (""))
    if p.length ≤ 2 ∨ endp ∈ memo then checkSegs g ps memo reject
    else if endp ∈ reject then (false, memo, reject)
    else if paths_for_len g endp.1 endp.2 (p.length - 1) then
      checkSegs g ps (memo ++ [endp]) reject
    else (false, memo, reject ++ [endp])

/-- The while-loop over candidate decompositions, smallest sort key
first; exhaustion is the (theoretically unreachable) RuntimeError. -/
def kpLoop (g : DiGraph) (originalPath : List String) :
    List (Nat × List (List String)) → List (String × String) →
    List (String × String) → Except Unit (List (String × Int))
  | [], _, _ => .error ()
  | (_, kpset) :: rest, memo, reject =>
    match checkSegs g kpset memo reject with
    | (true, _, _) => .ok (extract_keypoints kpset originalPath)
    | (false, m2, r2) => kpLoop g originalPath rest m2 r2

/-- find_key_points: the _precond short-circuit for short paths, the
MissingEdge check, then the sorted exhaustive search. -/
def find_key_points (g : DiGraph) (originalPath : List String) :
    Except Unit (List (String × Int)) :=
  if originalPath.length ≤ 2 then .ok (keypointDefault originalPath)
  else if ¬ check_graph_supports_path g originalPath then .error ()
  else
    kpLoop g originalPath
      (sortByLe kpPairLe
        ((all_kp_possible originalPath).map (fun k => (k.length, k))))
      [] []

/-- The chaining property of a decomposition: every segment starts at
the node the previous one ended on. -/
def SegLinks : List (List String) → Prop
  | [] => True
  | [_] => True
  | s1 :: s2 :: rest => s1.getLastD ("") = s2.headD ("") ∧ SegLinks (s2 :: rest)

/-! ## Mutable graph operations (model of the networkx mutations used
by stroboscope/algorithms/confine.py) -/

/-- Insert keeping the first occurrence (python set add under the
insertion iteration order chosen by this model). -/
def dedupInsert {α : Type} [DecidableEq α] (l : List α) (x : α) : List α :=
  if x ∈ l then l else l ++ [x]

/-- Union into a deduplicated list. -/
def dedupUnion {α : Type} [DecidableEq α] (l : List α) (xs : List α) :
    List α :=
  xs.foldl dedupInsert l

/-- Deduplicate keeping first occurrences. -/
def dedupKeepFirst {α : Type} [DecidableEq α] (l : List α) : List α :=
  dedupUnion [] l

/-- g.add_edge(u, v): register both endpoints and the edge if absent. -/
def addEdge (g : DiGraph) (u v : String) : DiGraph :=
  ⟨dedupInsert (dedupInsert g.nodesL u) v,
    if (u, v) ∈ g.edgesL then g.edgesL else g.edgesL ++ [(u, v)],
    g.egresses⟩

/-- g.add_edges_from(edges). -/
def addEdgesFrom (g : DiGraph) (edges : List (String × String)) : DiGraph :=
  edges.foldl (fun g2 e => addEdge g2 e.1 e.2) g

/-- g.remove_node(n): drop the node and its incident edges. -/
def removeNode (g : DiGraph) (n : String) : DiGraph :=
  ⟨g.nodesL.filter (· ≠ n),
    g.edgesL.filter (fun e => e.1 ≠ n ∧ e.2 ≠ n), g.egresses⟩

/-- g.remove_nodes_from(ns). -/
def removeNodesFrom (g : DiGraph) (ns : List String) : DiGraph :=
  ns.foldl removeNode g

/-- g.remove_edges_from(es). -/
def removeEdgesFrom (g : DiGraph) (es : List (String × String)) : DiGraph :=
  ⟨g.nodesL, g.edgesL.filter (fun e => e ∉ es), g.egresses⟩

/-- nx.DiGraph(edge list): only the edge-incident nodes are registered. -/
def digraphOfEdges (edges : List (String × String)) : DiGraph :=
  ⟨dedupKeepFirst (edges.flatMap (fun e => [e.1, e.2])), dedupKeepFirst edges, []⟩

/-- __copy_graph_remove_node: copy with all original nodes, minus one. -/
def copyGraphRemoveNode (g : DiGraph) (w : String) : DiGraph :=
  removeNode ⟨g.nodesL, g.edgesL, g.egresses⟩ w

/-- BFS closure of the reachable set, as an executable reachability
check used to exhibit concrete vertex cuts. -/
def reachClosure (g : DiGraph) : Nat → List String → List String
  | 0, acc => acc
  | fuel + 1, acc =>
    let next := (acc.flatMap g.succ).filter (fun n => ¬ n ∈ acc)
    if next.isEmpty then acc
    else reachClosure g fuel (dedupUnion acc next)

/-- Whether t is reachable from s in g. -/
def reachableB (g : DiGraph) (s t : String) : Bool :=
  t ∈ reachClosure g (g.nodesL.length + 1) [s]

/-! ## Bidirectional path search and bounded vertex cut
Embeds find_path / __bdfs from stroboscope/algorithms/graph.py applied
to the flow graphs of __bounded_minimal_vertex_cut
(stroboscope/algorithms/confine.py).  A flow graph is an edge list with
its used_flow attribute. -/

/-- A flow graph: (u, v, used_flow) triples. -/
abbrev FlowEdges := List (String × String × Int)

/-- g_succ[u] with edge attributes, in edge-list order. -/
def fsucc (g : FlowEdges) (u : String) : List (String × Int) :=
  (g.filter (fun e => e.1 = u)).map (fun e => (e.2.1, e.2.2))

/-- g_pred[u] with edge attributes, in edge-list order. -/
def fpred (g : FlowEdges) (u : String) : List (String × Int) :=
  (g.filter (fun e => e.2.1 = u)).map (fun e => (e.1, e.2.2))

/-- The inner scan of one frontier node in __bdfs: label the admissible
unlabelled neighbours with their parent, stopping when a node labelled
on the other side is met.  Returns (meeting node?, own map, next
frontier accumulator). -/
def bdfsScan (pr : Int → Bool) (other : List (String × Option String))
    (u : String) :
    List (String × Int) → List (String × Option String) → List String →
    (Option String × List (String × Option String) × List String)
  | [], own, q => (none, own, q)
  | (v, attr) :: rest, own, q =>
    if (alookup own v).isNone ∧ pr attr then
      let own2 := own ++ [(v, some u)]
      if (alookup other v).isSome then (some v, own2, q)
      else bdfsScan pr other u rest own2 (q ++ [v])
    else bdfsScan pr other u rest own q

/-- One frontier expansion of __bdfs. -/
def bdfsFrontier (adj : String → List (String × Int)) (pr : Int → Bool)
    (other : List (String × Option String)) :
    List String → List (String × Option String) → List String →
    (Option String × List (String × Option String) × List String)
  | [], own, q => (none, own, q)
  | u :: us, own, q =>
    match bdfsScan pr other u (adj u) own q with
    | (some v, own2, q2) => (some v, own2, q2)
    | (none, own2, q2) => bdfsFrontier adj pr other us own2 q2

/-- The alternating while-loop of __bdfs: expand the smaller frontier.
The outer none is fuel exhaustion (unreachable with the fuel used);
some none is the no-path outcome. -/
def bdfsLoop (gs gp : String → List (String × Int)) (pr : Int → Bool) :
    Nat → List (String × Option String) → List (String × Option String) →
    List String → List String →
    Option (Option (String × List (String × Option String) ×
      List (String × Option String)))
  | 0, _, _, _, _ => none
  | fuel + 1, pm, sm, q_s, q_t =>
    if q_s.length ≤ q_t.length then
      match bdfsFrontier gs pr sm q_s pm [] with
      | (some v, pm2, _) => some (some (v, pm2, sm))
      | (none, pm2, q) =>
        if q.isEmpty then some none
        else bdfsLoop gs gp pr fuel pm2 sm q q_t
    else
      match bdfsFrontier gp pr pm q_t sm [] with
      | (some v, sm2, _) => some (some (v, pm, sm2))
      | (none, sm2, q) =>
        if q.isEmpty then some none
        else bdfsLoop gs gp pr fuel pm sm2 q_s q

/-- Follow a parent map from u until stop, appending each parent. -/
def chainUp (pm : List (String × Option String)) (stop : String) :
    Nat → String → List String → Option (List String)
  | 0, _, _ => none
  | fuel + 1, u, acc =>
    if u = stop then some acc
    else
      match alookup pm u with
      | some (some u2) => chainUp pm stop fuel u2 (acc ++ [u2])
      | _ => none

/-- find_path on a flow graph: the empty list is the no-path result;
none only on fuel exhaustion, which the chosen fuel rules out for the
graphs evaluated here. -/
def find_path (g : FlowEdges) (s t : String) (pr : Int → Bool) :
    Option (List String) :=
  if s = t then some [s]
  else
    let fuel := 2 * g.length + 4
    match bdfsLoop (fsucc g) (fpred g) pr fuel [(s, none)] [(t, none)]
        [s] [t] with
    | none => none
    | some none => some []
    | some (some (n, pm, sm)) =>
      match chainUp pm s fuel n [n], chainUp sm t fuel n [] with
      | some back, some fwd => some (back.reverse ++ fwd)
      | _, _ => none

/-- __merge_nodes: contract a node set into one node named by joining
the labels; singleton (or smaller) sets are returned untouched. -/
def mergeNodes (g : DiGraph) (nodes : List String) : DiGraph × String :=
  if nodes.length ≤ 1 then (g, nodes.getLastD (""))
  else
    let into := String.intercalate ("_") nodes
    let inE := (g.edgesL.filter (fun e => e.2 ∈ nodes)).map
      (fun e => (e.1, into))
    let outE := (g.edgesL.filter (fun e => e.1 ∈ nodes)).map
      (fun e => (into, e.2))
    (removeNodesFrom (addEdgesFrom g (inE ++ outE)) nodes, into)

/-- The flow-graph initialisation of __bounded_minimal_vertex_cut: the
snapshot of the edges gets used_flow 0, and a reverse edge with
used_flow 1 is appended for every forward edge without one (the added
edges are not themselves re-visited in this model). -/
def initFlow (g : DiGraph) : FlowEdges :=
  g.edgesL.map (fun e => (e.1, e.2, (0 : Int))) ++
    (g.edgesL.filter (fun e => ¬ (e.2, e.1) ∈ g.edgesL)).map
      (fun e => (e.2, e.1, (1 : Int)))

/-- Add delta to the used_flow of edge (u, v). -/
def adjustFlow (g : FlowEdges) (u v : String) (delta : Int) : FlowEdges :=
  g.map (fun e =>
    if e.1 = u ∧ e.2.1 = v then (e.1, e.2.1, e.2.2 + delta) else e)

/-- Augment the flow by one along a path: +1 forward, -1 backward. -/
def augmentAlong : FlowEdges → List String → FlowEdges
  | g, [] => g
  | g, [_] => g
  | g, u :: v :: rest =>
    augmentAlong (adjustFlow (adjustFlow g u v 1) v u (-1)) (v :: rest)

/-- The Ford-Fulkerson loop of __bounded_minimal_vertex_cut: augment
while the flow value is at most k and a path exists. -/
def ffLoop (s t : String) (k : Int) :
    Nat → FlowEdges → Nat → (FlowEdges × Nat)
  | 0, g, flow => (g, flow)
  | fuel + 1, g, flow =>
    if (flow : Int) ≤ k then
      match find_path g s t (fun attr => attr < 1) with
      | some [] => (g, flow)
      | some path => ffLoop s t k fuel (augmentAlong g path) (flow + 1)
      | none => (g, flow)
    else (g, flow)

/-- __bounded_minimal_vertex_cut: contract src and dst, build the flow
graph, run Ford-Fulkerson at most k+1 times; the error value stands
for CutTooBig. -/
def boundedMinimalVertexCut (baseGraph : DiGraph) (src dst : List String)
    (k : Int) : Except Unit Nat :=
  let g0 : DiGraph := ⟨baseGraph.nodesL, baseGraph.edgesL, baseGraph.egresses⟩
  let (g1, s) := mergeNodes g0 src
  let (g2, t) := mergeNodes g1 dst
  let fg := initFlow g2
  let (_, flow) := ffLoop s t k (k.toNat + 2) fg 0
  if (flow : Int) > k then .error () else .ok flow

/-! ## Node multiway cut (NMC) and confinement
Embeds NMC, _identify_redundant_nodes, _rule_replacement,
find_confinement_edges, find_confinement_region and
find_confinement_relaxed from stroboscope/algorithms/confine.py. -/

/-- Failure modes of the NMC recursion: NoReduction, the RuntimeError
and KeyError crashes, and fuel exhaustion (unreachable at the fuel
chosen by the caller). -/
inductive NMCerr : Type
  | noReduction
  | pythonError
  | fuelOut
deriving Repr, DecidableEq

/-- The index of the first terminal set holding a node. -/
def termIdx (terminals : List (List String)) (x : String) : Option Nat :=
  terminals.findIdx? (fun t => t.contains x)

/-- Step 1 of NMC: some edge has its two ends in two different terminal
sets. -/
def nmcStep1 (g : DiGraph) (terminals : List (List String)) : Bool :=
  g.edgesL.any (fun e =>
    match termIdx terminals e.1, termIdx terminals e.2 with
    | some i, some j => i ≠ j
    | _, _ => false)

/-- Step 2 of NMC: find a non-terminal with neighbours in two
different terminal sets. -/
def nmcStep2 (g : DiGraph) (terminals : List (List String))
    (nonTerminals : List String) : Option String :=
  nonTerminals.find? (fun w =>
    1 < terminals.countP (fun t => t.any (fun x => (g.succ w).contains x)))

/-- The NMC recursion of Chen-Liu-Lu, faithful to the source including
its backtracking through the NoReduction exception. -/
def NMC : Nat → DiGraph → List (List String) → Int → List String →
    Except NMCerr (List String)
  | 0, _, _, _, _ => .error .fuelOut
  | fuel + 1, g, terminals, k, nonTerminals =>
    if nmcStep1 g terminals then .error .noReduction
    else
      match nmcStep2 g terminals nonTerminals with
      | some w =>
        match NMC fuel (copyGraphRemoveNode g w) terminals (k - 1)
            (nonTerminals.erase w) with
        | .ok res => .ok (res ++ [w])
        | .error e => .error e
      | none =>
        match terminals with
        | [] => .error .pythonError
        | t1 :: t2_l =>
          let t2flat := t2_l.flatten
          match boundedMinimalVertexCut g t1 t2flat k with
          | .error _ => .error .noReduction
          | .ok m1 =>
            if m1 = 0 ∧ terminals.length = 2 then .ok []
            else if m1 = 0 ∧ 2 < terminals.length then
              NMC fuel g t2_l k nonTerminals
            else
              match nonTerminals.filter (fun n =>
                  ((t1.map g.succ).flatten).contains n) with
              | [] => .error .pythonError
              | u :: _ =>
                let t1p := t1 ++ [u]
                let ntmu := nonTerminals.erase u
                match boundedMinimalVertexCut g t1p t2flat (m1 : Int) with
                | .ok m2 =>
                  if m2 = m1 then NMC fuel g (t1p :: t2_l) k ntmu
                  else .error .pythonError
                | .error _ =>
                  match NMC fuel (copyGraphRemoveNode g u) terminals (k - 1)
                      ntmu with
                  | .ok S => .ok (S ++ [u])
                  | .error .noReduction => NMC fuel g (t1p :: t2_l) k ntmu
                  | .error e => .error e

/-- The connected-component walk of _identify_redundant_nodes: explore
outside the region from the keypoint, recording region neighbours. -/
def ccLoop (g : DiGraph) (regionSet : List String) :
    Nat → List String → List String → List String →
    (List String × List String)
  | 0, _, cc, reach => (cc, reach)
  | fuel + 1, toVisit, cc, reach =>
    match toVisit with
    | [] => (cc, reach)
    | n :: rest =>
      if n ∈ cc then ccLoop g regionSet fuel rest cc reach
      else
        let nei := g.succ n
        ccLoop g regionSet fuel
          (rest ++ nei.filter (fun x => ¬ x ∈ regionSet))
          (cc ++ [n])
          (dedupUnion reach (nei.filter (fun x => x ∈ regionSet)))

/-- The per-keypoint body of _identify_redundant_nodes: add the
keypoint back, walk its outside component, decide whether its
reachability set has at least two nodes of interest, and restore the
graph. -/
def identifyKeeps (edgesForKp : List (String × List (String × String)))
    (regionSet egresses : List String) (g : DiGraph) (kp : String) :
    Bool × (List String × List String) × DiGraph :=
  let g2 := addEdgesFrom g ((alookup edgesForKp kp).getD [])
  let fuel := 2 * (g2.edgesL.length + g2.nodesL.length + 2)
  let (cc, reach1) := ccLoop g2 regionSet fuel [kp] [] []
  let reach := dedupUnion reach1 (egresses.filter (fun e => e ∈ cc))
  (1 < reach.length, (cc, reach), removeNode g2 kp)

/-- _identify_redundant_nodes: add each keypoint back, walk its outside
component, and keep it only when its reachability set has at least two
nodes of interest. -/
def identifyRedundantNodes
    (edgesForKp : List (String × List (String × String)))
    (regionSet egresses : List String) :
    List String → DiGraph →
    List (String × (List String × List String)) →
    List (String × (List String × List String))
  | [], _, acc => acc
  | kp :: rest, g, acc =>
    match identifyKeeps edgesForKp regionSet egresses g kp with
    | (keep, info, g3) =>
      identifyRedundantNodes edgesForKp regionSet egresses rest g3
        (if keep then acc ++ [(kp, info)] else acc)

/-- The per-node body of find_confinement_edges: raise MissingEdge when
a region node has no neighbour inside the region, else record the
region-leaving edges. -/
def confinementEdgesLoop (graph : DiGraph) (regionSet : List String) :
    List String → List (String × String) →
    Except Unit (List (String × String))
  | [], acc => .ok acc
  | node :: rest, acc =>
    let nset := graph.succ node
    if ¬ nset.any (fun v => v ∈ regionSet) then .error ()
    else
      confinementEdgesLoop graph regionSet rest
        ((nset.filter (fun v => ¬ v ∈ regionSet)).foldl
          (fun a v => if (node, v) ∈ a then a else a ++ [(node, v)]) acc)

/-- find_confinement_edges (optimization level 0). -/
def find_confinement_edges (graph : DiGraph) (region : List String) :
    Except Unit (List (String × String)) :=
  confinementEdgesLoop graph region region []

/-- find_confinement_region (optimization level 1): the head nodes of
the surrounding edges. -/
def find_confinement_region (graph : DiGraph) (region : List String) :
    Except Unit (List String) :=
  match find_confinement_edges graph region with
  | .ok edges => .ok (dedupKeepFirst (edges.map Prod.snd))
  | .error e => .error e

/-- The graph of _rule_replacement: the edge-built copy with the
region-internal edges removed and the sink nodes dropped. -/
def rrGraph (graph : DiGraph) (region : List String) : DiGraph :=
  let g0 := digraphOfEdges graph.edgesL
  let g1 := removeEdgesFrom g0
    (g0.edgesL.filter (fun e => e.1 ∈ region ∧ e.2 ∈ region))
  removeNodesFrom g1 (g1.nodesL.filter (fun n => (g1.succ n).isEmpty))

/-- The singleton terminal sets of _rule_replacement: one per
surviving region node. -/
def rrTerm0 (graph : DiGraph) (region : List String) :
    List (List String) :=
  ((rrGraph graph region).nodesL.filter
    (fun n => n ∈ region)).map (fun n => [n])

/-- The terminal sets of _rule_replacement: the region singletons plus
the egress set when non-empty. -/
def rrTerminals (graph : DiGraph) (egresses region : List String) :
    List (List String) :=
  if egresses.isEmpty then rrTerm0 graph region
  else rrTerm0 graph region ++ [egresses]

/-- The non-terminal nodes of _rule_replacement. -/
def rrNonT (graph : DiGraph) (egresses region : List String) :
    List String :=
  (rrGraph graph region).nodesL.filter
    (fun n => ¬ (rrTerminals graph egresses region).any (fun t => n ∈ t))

/-- _rule_replacement: disconnect the region internally, drop sink
nodes, make each region node and the egress set terminal sets, and try
to beat the incumbent keypoint set through NMC. -/
def rule_replacement (graph : DiGraph)
    (kpInfo : List (String × (List String × List String)))
    (egresses region : List String) : Except Unit (List String) :=
  if (rrTerminals graph egresses region).length < 2 then
    .ok (kpInfo.map Prod.fst)
  else
    match NMC ((rrNonT graph egresses region).length +
        (rrTerminals graph egresses region).length + 2)
        (rrGraph graph region) (rrTerminals graph egresses region)
        ((kpInfo.length : Int) - 1) (rrNonT graph egresses region) with
    | .ok S => .ok (dedupKeepFirst S)
    | .error .noReduction => .ok (kpInfo.map Prod.fst)
    | .error _ => .error ()

/-- find_confinement_relaxed (optimization level 2). -/
def find_confinement_relaxed (graph : DiGraph) (region : List String) :
    Except Unit (List String) :=
  match find_confinement_region graph region with
  | .error e => .error e
  | .ok nodes =>
    let egresses := graph.egresses.filter (fun e => ¬ e ∈ region)
    let kpLess := removeNodesFrom (digraphOfEdges graph.edgesL) nodes
    let edgesForKp := nodes.map (fun kp =>
      (kp, graph.edgesL.filter (fun e => e.2 = kp) ++
        graph.edgesL.filter (fun e => e.1 = kp)))
    let kpInfo :=
      identifyRedundantNodes edgesForKp region egresses nodes kpLess []
    rule_replacement graph kpInfo egresses region

/-! ## Shortest-path trees
Embeds get_spt / _spt_from_src from stroboscope/algorithms/graph.py: a
Dijkstra variant with a counter tie-break in the heap and ECMP path
lists.  The heap is modelled by popping the minimal (distance, counter)
entry; counters are unique, so node labels are never compared, as in
the source.  sys.maxint (the seen default) is modelled as absence from
the seen map. -/

/-- A weighted directed graph: the adjacency dict in iteration order.
Edge weights are integers. -/
structure WGraph where
  adj : List (String × List (String × Int))

/-- g.nodes_iter(). -/
def WGraph.nodes (g : WGraph) : List String := g.adj.map Prod.fst

/-- g[v].iteritems(). -/
def WGraph.nbrs (g : WGraph) (v : String) : List (String × Int) :=
  (alookup g.adj v).getD []

/-- The weight of the directed edge (u, v), when present. -/
def WGraph.weight (g : WGraph) (u v : String) : Option Int :=
  alookup (g.nbrs u) v

/-- Well-formedness of the dict-of-dicts representation: unique keys
and neighbours that are nodes. -/
def WGraph.WF (g : WGraph) : Prop :=
  (g.nodes).Nodup ∧
    ∀ p ∈ g.adj, (p.2.map Prod.fst).Nodup ∧ ∀ e ∈ p.2, e.1 ∈ g.nodes

/-- extend_paths_list: copy every path and append the node. -/
def extend_paths_list (paths : List (List String)) (n : String) :
    List (List String) :=
  paths.map (fun p => p ++ [n])

/-- The heapq tuple order on (distance, counter, node): counters are
unique so the node is never reached. -/
def heapLe (a b : Int × Nat × String) : Bool :=
  decide (a.1 < b.1) || (a.1 == b.1 && decide (a.2.1 ≤ b.2.1))

/-- The propositional form of the heap order. -/
def HeapLePr (a b : Int × Nat × String) : Prop :=
  a.1 < b.1 ∨ (a.1 = b.1 ∧ a.2.1 ≤ b.2.1)

/-- heapq.heappop: remove and return the minimal tuple. -/
def popMin (l : List (Int × Nat × String)) :
    Option ((Int × Nat × String) × List (Int × Nat × String)) :=
  match l with
  | [] => none
  | x :: xs =>
    let m := xs.foldl (fun acc y => if heapLe acc y then acc else y) x
    some (m, l.erase m)

/-- The neighbour relaxation loop of _spt_from_src for one popped node
v at distance d.  The dist map is read-only here; seen, the fringe,
the path lists and the push counter are threaded.  The error is the
ValueError raised on a contradictory (negative-metric) relaxation. -/
def relaxAll (g : WGraph) (v : String) (d : Int)
    (dist : List (String × Int)) :
    List (String × Int) → List (String × Int) →
    List (Int × Nat × String) → List (String × List (List String)) → Nat →
    Except Unit (List (String × Int) × List (Int × Nat × String) ×
      List (String × List (List String)) × Nat)
  | [], seen, fringe, paths, c => .ok (seen, fringe, paths, c)
  | (w, wt) :: rest, seen, fringe, paths, c =>
    let vw := d + wt
    if vw < (alookup dist w).getD 0 then .error ()
    else
      match alookup seen w with
      | none =>
        relaxAll g v d dist rest (aset seen w vw) (fringe ++ [(vw, c, w)])
          (aset paths w (extend_paths_list ((alookup paths v).getD []) w))
          (c + 1)
      | some sw =>
        if vw < sw then
          relaxAll g v d dist rest (aset seen w vw) (fringe ++ [(vw, c, w)])
            (aset paths w (extend_paths_list ((alookup paths v).getD []) w))
            (c + 1)
        else if vw = sw then
          relaxAll g v d dist rest seen fringe
            (aset paths w (((alookup paths w).getD []) ++
              extend_paths_list ((alookup paths v).getD []) w)) c
        else
          relaxAll g v d dist rest seen fringe paths c

/-- The main while-loop of _spt_from_src.  The outer none is fuel
exhaustion, ruled out by the caller's fuel; the inner error is the
negative-metric ValueError. -/
def sptLoop (g : WGraph) :
    Nat → List (Int × Nat × String) → List (String × Int) →
    List (String × Int) → List (String × List (List String)) → Nat →
    Option (Except Unit (List (String × List (List String)) ×
      List (String × Int)))
  | 0, _, _, _, _, _ => none
  | fuel + 1, fringe, dist, seen, paths, c =>
    match popMin fringe with
    | none => some (.ok (paths, dist))
    | some ((d, _, v), fringe2) =>
      if (alookup dist v).isSome then sptLoop g fuel fringe2 dist seen paths c
      else
        match relaxAll g v d (aset dist v d) (g.nbrs v) seen fringe2
            paths c with
        | .error e => some (.error e)
        | .ok (seen2, fringe3, paths2, c2) =>
          sptLoop g fuel fringe3 (aset dist v d) seen2 paths2 c2

/-- A fuel bound: one pop for the initial push plus at most one pop
per relaxation (each directed edge is relaxed at most once). -/
def sptFuel (g : WGraph) : Nat :=
  (g.adj.map (fun p => p.2.length)).sum + 2

/-- _spt_from_src: the Dijkstra run from one source. -/
def spt_from_src (g : WGraph) (source : String) :
    Option (Except Unit (List (String × List (List String)) ×
      List (String × Int))) :=
  sptLoop g (sptFuel g) [(0, 0, source)] [] [(source, 0)]
    [(source, [[source]])] 1

/-- The per-source loop of get_spt, accumulating the spt and dist
dicts keyed by source. -/
def getSptLoop (g : WGraph) :
    List String →
    List (String × List (String × List (List String))) →
    List (String × List (String × Int)) →
    Option (Except Unit
      (List (String × List (String × List (List String))) ×
        List (String × List (String × Int))))
  | [], spt, dist => some (.ok (spt, dist))
  | n :: rest, spt, dist =>
    match spt_from_src g n with
    | none => none
    | some (.error e) => some (.error e)
    | some (.ok (p, d)) =>
      getSptLoop g rest (spt ++ [(n, p)]) (dist ++ [(n, d)])

/-- get_spt: shortest-path trees and distance maps from every node. -/
def get_spt (g : WGraph) :
    Option (Except Unit
      (List (String × List (String × List (List String))) ×
        List (String × List (String × Int)))) :=
  getSptLoop g g.nodes [] []

/-- The total cost of a node sequence, defined when every consecutive
pair is an edge. -/
def pathCost (g : WGraph) : List String → Option Int
  | [] => none
  | [_] => some 0
  | u :: v :: rest =>
    match g.weight u v, pathCost g (v :: rest) with
    | some w, some c => some (w + c)
    | _, _ => none

/-- A path from s to t in g. -/
def IsPathFromTo (g : WGraph) (s t : String) (p : List String) : Prop :=
  p ≠ [] ∧ p.headD ("") = s ∧ p.getLastD ("") = t ∧ (pathCost g p).isSome

/-- d is the minimum cost over all paths from s to t, and is achieved. -/
def ShortestDist (g : WGraph) (s t : String) (d : Int) : Prop :=
  (∃ p, IsPathFromTo g s t p ∧ pathCost g p = some d) ∧
    ∀ p c, IsPathFromTo g s t p → pathCost g p = some c → d ≤ c

/-- t is reachable from s. -/
def Reachable (g : WGraph) (s t : String) : Prop :=
  ∃ p, IsPathFromTo g s t p

/-- A candidate distance for w given the settled dist map: 0 for the
source, or a settled predecessor distance plus an edge weight. -/
def Cand (g : WGraph) (src : String) (dist : List (String × Int))
    (w : String) (c : Int) : Prop :=
  (w = src ∧ c = 0) ∨
    ∃ u du wt, alookup dist u = some du ∧ g.weight u w = some wt ∧
      c = du + wt

/-- The invariant of the Dijkstra loop. -/
structure SptInv (g : WGraph) (src : String)
    (fringe : List (Int × Nat × String)) (dist seen : List (String × Int))
    (paths : List (String × List (List String))) : Prop where
  distOk : ∀ v d, alookup dist v = some d →
    ShortestDist g src v d ∧ alookup seen v = some d ∧
      ∃ pv, alookup paths v = some pv ∧
        ∀ p, p ∈ pv ↔ (IsPathFromTo g src v p ∧ pathCost g p = some d)
  seenMin : ∀ w sw, alookup seen w = some sw →
    Cand g src dist w sw ∧ ∀ c, Cand g src dist w c → sw ≤ c
  seenNone : ∀ w, alookup seen w = none → ∀ c, ¬ Cand g src dist w c
  pathsSpec : ∀ w sw, alookup seen w = some sw →
    ∃ pw, alookup paths w = some pw ∧
      ∀ p, p ∈ pw ↔ ((w = src ∧ p = [src]) ∨
        ∃ u du wt q pu, alookup dist u = some du ∧
          g.weight u w = some wt ∧ du + wt = sw ∧
          alookup paths u = some pu ∧ q ∈ pu ∧ p = q ++ [w])
  pathsNone : ∀ w, alookup seen w = none → alookup paths w = none
  fringeCand : ∀ e ∈ fringe, Cand g src dist e.2.2 e.1
  fringeComplete : ∀ w sw, alookup seen w = some sw →
    alookup dist w = none → ∃ c, (sw, c, w) ∈ fringe
  fringeHigh : ∀ e ∈ fringe, ∀ u du, alookup dist u = some du → du ≤ e.1

/-- The loop potential: fringe entries still to pop plus the degrees of
the nodes not yet settled.  Popping strictly decreases it, so it bounds
the iteration count. -/
def sptPhi (g : WGraph) (fringe : List (Int × Nat × String))
    (dist : List (String × Int)) : Nat :=
  fringe.length +
    ((g.nodes.filter (fun u => (alookup dist u).isNone)).map
      (fun u => (g.nbrs u).length)).sum

/-- Partial candidate distances during the relaxation of node v settled
at distance d: a candidate through the previously settled map, or
through v itself via an already-processed neighbour entry. -/
def CandP (g : WGraph) (src v : String) (d : Int)
    (dist : List (String × Int)) (pre : List (String × Int))
    (w : String) (c : Int) : Prop :=
  Cand g src dist w c ∨ ∃ wt, alookup pre w = some wt ∧ c = d + wt

/-- The invariant of the neighbour-relaxation loop: v has just been
settled at distance d on top of dist, and pre is the list of already
processed neighbour entries of v. -/
structure RelaxInv (g : WGraph) (src v : String) (d : Int)
    (dist : List (String × Int)) (pre : List (String × Int))
    (seen : List (String × Int)) (fringe : List (Int × Nat × String))
    (paths : List (String × List (List String))) : Prop where
  distOk : ∀ u du, alookup (aset dist v d) u = some du →
    ShortestDist g src u du ∧ alookup seen u = some du ∧
      ∃ pu, alookup paths u = some pu ∧
        ∀ p, p ∈ pu ↔ (IsPathFromTo g src u p ∧ pathCost g p = some du)
  seenMin : ∀ w sw, alookup seen w = some sw →
    CandP g src v d dist pre w sw ∧
      ∀ c, CandP g src v d dist pre w c → sw ≤ c
  seenNone : ∀ w, alookup seen w = none →
    ∀ c, ¬ CandP g src v d dist pre w c
  pathsSpec : ∀ w sw, alookup seen w = some sw →
    ∃ pw, alookup paths w = some pw ∧
      ∀ p, p ∈ pw ↔ ((w = src ∧ p = [src]) ∨
        (∃ u du wt q pu, alookup dist u = some du ∧
          g.weight u w = some wt ∧ du + wt = sw ∧
          alookup paths u = some pu ∧ q ∈ pu ∧ p = q ++ [w]) ∨
        (∃ wt q pv, alookup pre w = some wt ∧ d + wt = sw ∧
          alookup paths v = some pv ∧ q ∈ pv ∧ p = q ++ [w]))
  pathsNone : ∀ w, alookup seen w = none → alookup paths w = none
  fringeCand : ∀ e ∈ fringe, Cand g src (aset dist v d) e.2.2 e.1
  fringeComplete : ∀ w sw, alookup seen w = some sw →
    alookup (aset dist v d) w = none → ∃ c, (sw, c, w) ∈ fringe
  fringeHigh : ∀ e ∈ fringe, ∀ u du,
    alookup (aset dist v d) u = some du → du ≤ e.1

/-- The per-source result of get_spt, as selected by the source loop
(the default is never used on a graph accepted by _spt_from_src). -/
def sptResult (g : WGraph) (n : String) :
    List (String × List (List String)) × List (String × Int) :=
  match spt_from_src g n with
  | some (.ok pd) => pd
  | _ => ([], [])

/-! # Lemmas and claim theorems -/

/-! ### FFD scheduler lemmas -/

theorem placeFirstFit_inv {maxBw cost : Nat} :
    ∀ {slots slots2 : List (List Nat × Nat)},
      placeFirstFit maxBw cost slots = some slots2 →
      SlotsInv maxBw slots → SlotsInv maxBw slots2 := by
  intro slots
  induction slots with
  | nil => intro slots2 h; simp [placeFirstFit] at h
  | cons hd tl ih =>
    intro slots2 h hinv
    obtain ⟨qs, bw⟩ := hd
    by_cases hfit : bw + cost ≤ maxBw
    · simp [placeFirstFit, hfit] at h
      subst h
      intro p hp
      rcases List.mem_cons.1 hp with hp | hp
      · subst hp
        have := hinv (qs, bw) (List.mem_cons_self _ _)
        constructor
        · simpa using congrArg (· + cost) this.1
        · exact hfit
      · exact hinv p (List.mem_cons_of_mem _ hp)
    · simp only [placeFirstFit, if_neg hfit] at h
      cases hrec : placeFirstFit maxBw cost tl with
      | none => rw [hrec] at h; exact absurd h (by simp)
      | some rest2 =>
        rw [hrec] at h
        simp at h
        subst h
        have htl : SlotsInv maxBw rest2 :=
          ih hrec (fun p hp => hinv p (List.mem_cons_of_mem _ hp))
        intro p hp
        rcases List.mem_cons.1 hp with hp | hp
        · subst hp; exact hinv _ (List.mem_cons_self _ _)
        · exact htl p hp

theorem ffdLoop_inv {budget : Budget} :
    ∀ {left : List Nat} {slots final : List (List Nat × Nat)},
      (∀ c ∈ left, c ≤ budget.usingBw) →
      SlotsInv budget.usingBw slots →
      ffdLoop budget left slots = .ok final →
      SlotsInv budget.usingBw final := by
  intro left
  induction left with
  | nil =>
    intro slots final _ hinv h
    simp [ffdLoop] at h
    subst h; exact hinv
  | cons cost rest ih =>
    intro slots final hcosts hinv h
    have hcost : cost ≤ budget.usingBw := hcosts cost (List.mem_cons_self _ _)
    have hrest : ∀ c ∈ rest, c ≤ budget.usingBw :=
      fun c hc => hcosts c (List.mem_cons_of_mem _ hc)
    simp only [ffdLoop] at h
    cases hplace : placeFirstFit budget.usingBw cost slots with
    | some slots2 =>
      rw [hplace] at h
      exact ih hrest (placeFirstFit_inv hplace hinv) h
    | none =>
      rw [hplace] at h
      by_cases hsl : budget.maxSlots ≤ slots.length
      · simp [hsl] at h
      · simp only [if_neg hsl] at h
        refine ih hrest ?_ h
        intro p hp
        rcases List.mem_append.1 hp with hp | hp
        · exact hinv p hp
        · simp at hp
          subst hp
          exact ⟨by simp, hcost⟩

/-- C1 fails as stated: a query whose cost exceeds the budget opens an
over-budget slot.  With cost 10 and using = 5 the scheduler still
returns a schedule whose second slot sums to 10 > 5. -/
theorem C1_counterexample :
    find_first_fit_estimation [10] ⟨5, 2⟩ = .ok [[], [10]] ∧
      ∃ s ∈ [[], [10]], List.sum s > 5 := by
  constructor
  · rfl
  · exact ⟨[10], by simp, by simp⟩

/-- C1 (amended): whenever every query cost is at most budget.using and
find_first_fit_estimation returns a schedule, every slot of that schedule
sums to at most budget.using. -/
theorem C1_ffd_budget_invariant (queries : List Nat) (budget : Budget)
    (sched : List (List Nat))
    (hcosts : ∀ c ∈ queries, c ≤ budget.usingBw)
    (hok : find_first_fit_estimation queries budget = .ok sched) :
    ∀ s ∈ sched, s.sum ≤ budget.usingBw := by
  unfold find_first_fit_estimation at hok
  cases hloop : ffdLoop budget (List.insertionSort (· ≤ ·) queries).reverse
      [([], 0)] with
  | error e => rw [hloop] at hok; exact absurd hok (by simp)
  | ok slots =>
    rw [hloop] at hok
    simp at hok
    subst hok
    have hleft : ∀ c ∈ (List.insertionSort (· ≤ ·) queries).reverse,
        c ≤ budget.usingBw := by
      intro c hc
      apply hcosts
      have h1 : c ∈ List.insertionSort (· ≤ ·) queries := by
        simpa using hc
      exact (List.perm_insertionSort (· ≤ ·) queries).mem_iff.1 h1
    have hinv0 : SlotsInv budget.usingBw [([], 0)] := by
      intro p hp
      simp at hp
      subst hp
      simp
    have hfin := ffdLoop_inv hleft hinv0 hloop
    intro s hs
    simp at hs
    obtain ⟨bw, hmem⟩ := hs
    have := hfin (s, bw) hmem
    calc s.sum = bw := this.1
      _ ≤ budget.usingBw := this.2

/-- Witness for C1: the amended invariant applied to the concrete FFD
run over costs [4,3,2,2,1] with budget 5. -/
theorem C1_witness :
    List.sum [4, 1] ≤ 5 ∧ List.sum [3, 2] ≤ 5 ∧ List.sum [2] ≤ 5 :=
  have h := C1_ffd_budget_invariant [4, 3, 2, 2, 1] ⟨5, 3⟩
    [[4, 1], [3, 2], [2]] (by decide) (by rfl)
  ⟨h [4, 1] (by decide), h [3, 2] (by decide), h [2] (by decide)⟩

/-- C6: FFD over costs [4,3,2,2,1] with using = 5 and enough slots yields
exactly the three slots {4,1}, {3,2}, {2}; with max_slots = 2 the same
input raises NoSchedule, since placing the second cost-2 query would
require opening a slot beyond max_slots. -/
theorem C6_ffd_example :
    find_first_fit_estimation [4, 3, 2, 2, 1] ⟨5, 3⟩ =
        .ok [[4, 1], [3, 2], [2]] ∧
      find_first_fit_estimation [4, 3, 2, 2, 1] ⟨5, 2⟩ = .error () := by
  constructor <;> rfl

/-! ### Schedule replication lemmas -/

theorem join_replicate_getD (M : List (List Nat)) :
    ∀ (n i : Nat), i < n * M.length →
      ((List.replicate n M).flatten).getD i [] = M.getD (i % M.length) [] := by
  intro n
  induction n with
  | zero => intro i h; simp at h
  | succ k ih =>
    intro i h
    have hM : 0 < M.length := by
      by_contra hle
      simp at hle
      rw [hle] at h
      simp at h
    rw [List.replicate_succ, List.flatten_cons]
    by_cases hi : i < M.length
    · rw [List.getD_append _ _ _ _ hi, Nat.mod_eq_of_lt hi]
    · push_neg at hi
      rw [List.getD_append_right _ _ _ _ hi]
      have h2 : i - M.length < k * M.length := by
        have := Nat.sub_lt_sub_right hi h
        rwa [Nat.succ_mul, Nat.add_sub_cancel] at this
      rw [ih _ h2]
      congr 1
      conv_rhs => rw [← Nat.sub_add_cancel hi, Nat.add_mod_right]

/-- C7 fails as stated: padding slots are empty, so a padded index is
not identical to its index mod the minimum schedule length.  With
M = [[1],[2]] and max_slots = 3, slot 2 is empty but slot 2 mod 2 = 0
holds query 1. -/
theorem C7_counterexample :
    schedule_replication_solve [[1], [2]] ⟨0, 3⟩ = .ok [[1], [2], []] ∧
      ¬ ([[1], [2], ([] : List Nat)].getD 2 [] =
         [[1], [2], ([] : List Nat)].getD (2 % 2) []) := by
  constructor
  · rfl
  · decide

/-- C7 (amended): for a non-empty minimum schedule M without empty
slots, the first widen * |M| slots of the replicated schedule repeat M
cyclically (slot i equals slot i mod |M|), and every slot after them is
an empty padding slot, where widen = max 1 (max_slots / |M|). -/
theorem C7_replication_structure (M : List (List Nat)) (budget : Budget)
    (sched : List (List Nat))
    (hne : M ≠ [])
    (hslots : ∀ s ∈ M, s ≠ [])
    (hok : schedule_replication_solve M budget = .ok sched) :
    (∀ i < max 1 (budget.maxSlots / M.length) * M.length,
        sched.getD i [] = M.getD (i % M.length) []) ∧
      (∀ i, max 1 (budget.maxSlots / M.length) * M.length ≤ i →
        sched.getD i [] = []) := by
  have hfilter : M.filter (fun s => !s.isEmpty) = M := by
    apply List.filter_eq_self.2
    intro s hs
    simpa [List.isEmpty_iff] using hslots s hs
  have hlen : M.length ≠ 0 := by
    intro h0
    exact hne (List.length_eq_zero.1 h0)
  unfold schedule_replication_solve at hok
  rw [hfilter] at hok
  simp only [if_neg hlen] at hok
  set widen := max 1 (budget.maxSlots / M.length) with hw
  have hjlen : ((List.replicate widen M).flatten).length = widen * M.length := by
    simp [List.length_flatten, Function.comp]
  have hsched : sched =
      (List.replicate widen M).flatten ++
        List.replicate (budget.maxSlots - widen * M.length) [] := by
    have := hok
    simp only [Except.ok.injEq] at this
    rw [← this, hjlen]
  constructor
  · intro i hi
    have hb : i < ((List.replicate widen M).flatten).length := by
      rw [hjlen]; exact hi
    rw [hsched, List.getD_append _ _ _ _ hb]
    exact join_replicate_getD M widen i hi
  · intro i hi
    have hb : ((List.replicate widen M).flatten).length ≤ i := by
      rw [hjlen]; exact hi
    rw [hsched, List.getD_append_right _ _ _ _ hb]
    rcases Nat.lt_or_ge (i - ((List.replicate widen M).flatten).length)
        (budget.maxSlots - widen * M.length) with hc | hc
    · rw [List.getD_eq_getElem?_getD, List.getElem?_replicate, if_pos hc]
      rfl
    · rw [List.getD_eq_getElem?_getD, List.getElem?_replicate,
        if_neg (by omega)]
      rfl

/-- Witness for C7: the structure theorem applied to M = [[1],[2]] with
max_slots = 5 (widen = 2): slot 2 equals slot 0 and slot 4 is padding. -/
theorem C7_witness :
    [[1], [2], [1], [2], ([] : List Nat)].getD 2 [] =
        [[1], [2]].getD (2 % 2) [] ∧
      [[1], [2], [1], [2], ([] : List Nat)].getD 4 [] = [] := by
  have h := C7_replication_structure [[1], [2]] ⟨0, 5⟩
    [[1], [2], [1], [2], []] (by decide) (by decide) (by rfl)
  exact ⟨h.1 2 (by decide), h.2 4 (by decide)⟩

/-! ### usage_prediction lemmas -/

/-- C10 fails as stated: a prefix whose recorded history is the empty
list makes Python max() raise ValueError, so usage_prediction does not
return a value at all. -/
theorem C10_counterexample :
    ¬ ∃ v, usage_prediction ⟨50, [("p", [])]⟩ "p" 0 = .ok v ∧ v ≤ 50 := by
  rintro ⟨v, hv, -⟩
  have : usage_prediction ⟨50, [("p", [])]⟩ "p" 0 = .error () := by rfl
  rw [this] at hv
  exact absurd hv (by simp)

/-- C10 (amended): whenever usage_prediction returns a value (i.e. the
stored history for the prefix is absent or non-empty), that value is at
most max_bw, and if there is no stored history the value is exactly
max_bw (the NetFlow fallback raises NoNetFlowRecords in the source). -/
theorem C10_usage_prediction_clamped (db : NetDBu) (pfx : String)
    (campaignNumber : Nat) (v : Int)
    (hok : usage_prediction db pfx campaignNumber = .ok v) :
    v ≤ db.maxBw ∧
      (alookup db.pastMeasurements pfx = none → v = db.maxBw) := by
  unfold usage_prediction at hok
  cases hlook : alookup db.pastMeasurements pfx with
  | none =>
    rw [hlook] at hok
    simp only [netflow_estimation] at hok
    simp at hok
    exact ⟨le_of_eq hok.symm, fun _ => hok.symm⟩
  | some l =>
    rw [hlook] at hok
    cases l with
    | nil => simp at hok
    | cons m rest =>
      simp only at hok
      refine ⟨?_, fun hnone => absurd hnone (by simp)⟩
      by_cases hcl : (rest.map Prod.snd).foldl max m.2 > db.maxBw
      · simp only [if_pos hcl] at hok
        simp at hok
        omega
      · simp only [if_neg hcl] at hok
        simp at hok
        omega

/-- Witness for C10: a recorded demand of 60 with max_bw = 50 is clamped
to 50, and the clamped value is at most max_bw. -/
theorem C10_witness :
    usage_prediction ⟨50, [("p", [(0, 60)])]⟩ "p" 0 = .ok 50 ∧
      (50 : Int) ≤ 50 := by
  refine ⟨by rfl, ?_⟩
  exact (C10_usage_prediction_clamped ⟨50, [("p", [(0, 60)])]⟩ "p" 0 50
    (by rfl)).1

/-! ### resolve_region lemmas -/

theorem resolveLoop_no_arrow (db : NetDBr) :
    ∀ (toks : List String) (p : List String),
      ARROW ∉ toks →
      resolveLoop db toks [p] = .ok [p ++ toks] := by
  intro toks
  induction toks with
  | nil => intro p _; simp [resolveLoop]
  | cons hop rest ih =>
    intro p hno
    have hhop : hop ≠ ARROW := by
      intro h; exact hno (h ▸ List.mem_cons_self _ _)
    have hrest : ARROW ∉ rest := fun h => hno (List.mem_cons_of_mem _ h)
    cases rest with
    | nil => simp [resolveLoop, hhop]
    | cons t rest2 =>
      rw [show resolveLoop db (hop :: t :: rest2) [p] =
          resolveLoop db (t :: rest2) ([p].map (fun q => q ++ [hop])) from
        if_pos hhop]
      rw [List.map_singleton, ih (p ++ [hop]) hrest]
      simp

/-- C8 fails as stated: for a concrete region the source never returns
None; it returns the one-element list holding the region itself as the
single concrete path (as the repository's own tests assert). -/
theorem C8_counterexample :
    resolve_region ⟨[], fun _ _ => []⟩ ["A", "B"] = .ok (some [["A", "B"]]) ∧
      resolve_region ⟨[], fun _ _ => []⟩ ["A", "B"] ≠ .ok none := by
  constructor
  · rfl
  · intro h
    have h2 : resolve_region ⟨[], fun _ _ => []⟩ ["A", "B"] =
        .ok (some [["A", "B"]]) := by rfl
    rw [h2] at h
    simp at h

/-- C8 (amended): a region without the wildcard arrow resolves to the
one-element path list holding the region itself (the empty region
resolves to itself, i.e. the empty list), never to None; a region with
a wildcard resolves to the cross-product expansion against the SPTs,
e.g. with spt A C = {[A,B,C], [A,L,C]} the region [A,->,C] resolves to
exactly those two ECMP paths. -/
theorem C8_resolve_region_concrete (db : NetDBr) (region : List String)
    (hno : ARROW ∉ region) :
    resolve_region db region =
      .ok (some (if region = [] then [] else [region])) := by
  cases region with
  | nil => rfl
  | cons head rest =>
    have hhead : head ≠ ARROW := by
      intro h; exact hno (h ▸ List.mem_cons_self _ _)
    have hrest : ARROW ∉ rest := fun h => hno (List.mem_cons_of_mem _ h)
    simp only [resolve_region, if_neg hhead]
    rw [resolveLoop_no_arrow db rest [head] hrest]
    simp

/-! ### Key-point sampling lemmas -/

theorem getLastD_irrel {α : Type} :
    ∀ (t : List α), t ≠ [] → ∀ (d1 d2 : α), t.getLastD d1 = t.getLastD d2 := by
  intro t
  induction t with
  | nil => intro h; exact absurd rfl h
  | cons a s ih =>
    intro _ d1 d2
    cases s with
    | nil => rfl
    | cons b u => simp [List.getLastD]

theorem getLastD_cons_of_ne {α : Type} (a : α) (t : List α) (d : α)
    (h : t ≠ []) : (a :: t).getLastD d = t.getLastD d := by
  cases t with
  | nil => exact absurd rfl h
  | cons b u =>
    show (b :: u).getLastD a = (b :: u).getLastD d
    exact getLastD_irrel _ (by simp) _ _

theorem getD_irrel_of_lt {α : Type} (l : List α) (j : Nat) (h : j < l.length)
    (d1 d2 : α) : l.getD j d1 = l.getD j d2 := by
  rw [List.getD_eq_getElem _ _ h, List.getD_eq_getElem _ _ h]

theorem headD_eq_getD {α : Type} (l : List α) (d : α) :
    l.headD d = l.getD 0 d := by
  cases l <;> rfl

theorem getLastD_eq_getD {α : Type} :
    ∀ (l : List α) (d : α), l.getLastD d = l.getD (l.length - 1) d := by
  intro l
  induction l with
  | nil => intro d; rfl
  | cons a t ih =>
    intro d
    cases t with
    | nil => rfl
    | cons b u =>
      rw [getLastD_cons_of_ne a _ d (by simp), ih]
      have : (a :: b :: u).length - 1 = ((b :: u).length - 1) + 1 := by
        simp
      rw [this, List.getD_cons_succ]

theorem headD_take {α : Type} (l : List α) (d : α) (i : Nat) (hi : 0 < i) :
    (l.take i).headD d = l.headD d := by
  cases l with
  | nil => simp
  | cons a t =>
    cases i with
    | zero => omega
    | succ j => simp

theorem getD_take {α : Type} (l : List α) (i j : Nat) (d : α) (h : j < i) :
    (l.take i).getD j d = l.getD j d := by
  rw [List.getD_eq_getElem?_getD, List.getD_eq_getElem?_getD,
    List.getElem?_take, if_pos h]

theorem getLastD_take {α : Type} (l : List α) (d : α) (i : Nat)
    (h1 : 1 ≤ i) (h2 : i ≤ l.length) :
    (l.take i).getLastD d = l.getD (i - 1) d := by
  rw [getLastD_eq_getD]
  have hlen : (l.take i).length = i := by
    rw [List.length_take]; omega
  rw [hlen, getD_take _ _ _ _ (by omega)]

theorem headD_drop {α : Type} (l : List α) (d : α) (k : Nat)
    (h : k < l.length) :
    (l.drop k).headD d = l.getD k d := by
  rw [headD_eq_getD, List.getD_eq_getElem?_getD, List.getD_eq_getElem?_getD,
    List.getElem?_drop]
  simp

theorem getLastD_drop {α : Type} (l : List α) (d : α) (k : Nat)
    (h : k < l.length) :
    (l.drop k).getLastD d = l.getLastD d := by
  rw [getLastD_eq_getD, getLastD_eq_getD, List.getD_eq_getElem?_getD,
    List.getD_eq_getElem?_getD, List.getElem?_drop, List.length_drop]
  congr 2
  omega

theorem allKpAux_short (f : Nat) (l : List String) (h : l.length < 2) :
    allKpAux f l = [[]] := by
  cases f with
  | zero => rfl
  | succ f2 => rw [allKpAux, if_pos h]

theorem allKp_chain :
    ∀ (fuel : Nat) (l : List String) (segs : List (List String)),
      l.length ≤ fuel → 2 ≤ l.length → segs ∈ allKpAux fuel l →
      segs ≠ [] ∧ (∀ s ∈ segs, 2 ≤ s.length) ∧
        (segs.headD []).headD ("") = l.headD ("") ∧
        (segs.getLastD []).getLastD ("") = l.getLastD ("") ∧
        SegLinks segs := by
  intro fuel
  induction fuel with
  | zero => intro l segs h1 h2 _; omega
  | succ f ih =>
    intro l segs hlen h2 hmem
    rw [allKpAux, if_neg (by omega), List.mem_flatten] at hmem
    obtain ⟨inner, hinner, hsegs⟩ := hmem
    rw [List.mem_map] at hinner
    obtain ⟨i, hi, rfl⟩ := hinner
    rw [List.mem_range'] at hi
    rw [List.mem_map] at hsegs
    obtain ⟨p, hp, rfl⟩ := hsegs
    obtain ⟨j, hj, hij⟩ := hi
    have hi2 : 2 ≤ i := by omega
    have hile : i ≤ l.length := by omega
    have hlne : l ≠ [] := by
      intro h0; rw [h0] at h2; simp at h2
    by_cases hil : i = l.length
    · subst hil
      have hshort : (l.drop (l.length - 1)).length < 2 := by
        rw [List.length_drop]; omega
      rw [allKpAux_short f _ hshort] at hp
      simp at hp
      subst hp
      rw [List.take_length]
      refine ⟨by simp, ?_, by simp, ?_, ?_⟩
      · intro s hs
        simp at hs
        subst hs
        exact h2
      · show (([l].getLastD []).getLastD ("") = l.getLastD (""))
        rfl
      · show SegLinks [l]
        simp [SegLinks]
    · have hilt : i < l.length := lt_of_le_of_ne hile hil
      have hdlen : (l.drop (i - 1)).length = l.length - (i - 1) :=
        List.length_drop _ _
      have hd2 : 2 ≤ (l.drop (i - 1)).length := by rw [hdlen]; omega
      have hdf : (l.drop (i - 1)).length ≤ f := by rw [hdlen]; omega
      obtain ⟨hpne, hplen, hphead, hplast, hplinks⟩ := ih _ p hdf hd2 hp
      have htake_ne : l.take i ≠ [] := by
        intro h0
        have h1 : min i l.length = 0 := by
          simpa [List.length_take] using congrArg List.length h0
        omega
      refine ⟨by simp, ?_, ?_, ?_, ?_⟩
      · intro s hs
        rcases List.mem_cons.1 hs with hs | hs
        · subst hs; rw [List.length_take]; omega
        · exact hplen s hs
      · show ((l.take i :: p).headD []).headD ("") = l.headD ("")
        simp only [List.headD_cons]
        exact headD_take l "" i (by omega)
      · rw [getLastD_cons_of_ne _ _ _ hpne, hplast,
          getLastD_drop l "" (i - 1) (by omega)]
      · cases p with
        | nil => exact absurd rfl hpne
        | cons p1 prest =>
          show (l.take i).getLastD ("") = p1.headD ("") ∧ SegLinks (p1 :: prest)
          refine ⟨?_, hplinks⟩
          rw [getLastD_take l "" i (by omega) hile]
          have : p1.headD ("") = (l.drop (i - 1)).headD ("") := by
            simpa using hphead
          rw [this, headD_drop l "" (i - 1) (by omega)]

theorem segGapSum (l : List String) :
    ∀ segs : List (List String), segs ≠ [] → SegLinks segs →
      (segs.map (fun p =>
        (l.indexOf (p.getLastD ("")) : Int)
          - (l.indexOf (p.headD ("")) : Int))).sum
        = (l.indexOf ((segs.getLastD []).getLastD ("")) : Int)
          - (l.indexOf ((segs.headD []).headD ("")) : Int) := by
  intro segs
  induction segs with
  | nil => intro h; exact absurd rfl h
  | cons s1 rest ih =>
    intro _ hlinks
    cases rest with
    | nil => simp
    | cons s2 rest2 =>
      have hlink : s1.getLastD ("") = s2.headD ("") := hlinks.1
      have hrec := ih (by simp) hlinks.2
      simp only [List.map_cons, List.sum_cons] at hrec ⊢
      rw [getLastD_cons_of_ne s1 _ _ (by simp)]
      simp only [List.headD_cons] at hrec ⊢
      rw [hrec, hlink]
      ring

theorem indexOf_headD (l : List String) (h : l ≠ []) :
    l.indexOf (l.headD ("")) = 0 := by
  cases l with
  | nil => exact absurd rfl h
  | cons a t => simp [List.indexOf_cons_self]

theorem indexOf_getLastD :
    ∀ (l : List String), l ≠ [] → l.Nodup →
      l.indexOf (l.getLastD ("")) = l.length - 1 := by
  intro l
  induction l with
  | nil => intro h; exact absurd rfl h
  | cons a t ih =>
    intro _ hnd
    cases t with
    | nil => simp [List.indexOf_cons_self]
    | cons b u =>
      rw [getLastD_cons_of_ne a _ _ (by simp)]
      have hmem : (b :: u).getLastD ("") ∈ b :: u := by
        rw [getLastD_eq_getD,
          List.getD_eq_getElem _ _ (Nat.sub_lt (by simp) one_pos)]
        exact List.getElem_mem _
      have hanotin : a ∉ b :: u := (List.nodup_cons.1 hnd).1
      have hne : (b :: u).getLastD ("") ≠ a := by
        intro h0; exact hanotin (h0 ▸ hmem)
      rw [List.indexOf_cons_ne _ (Ne.symm hne), ih (by simp) (List.nodup_cons.1 hnd).2]
      simp

theorem kpLoop_ok (g : DiGraph) (P : List String) :
    ∀ (q : List (Nat × List (List String)))
      (memo reject : List (String × String)) (kps : List (String × Int)),
      kpLoop g P q memo reject = .ok kps →
      ∃ pr ∈ q, kps = extract_keypoints pr.2 P := by
  intro q
  induction q with
  | nil => intro memo reject kps h; simp [kpLoop] at h
  | cons hd rest ih =>
    intro memo reject kps h
    obtain ⟨n, kpset⟩ := hd
    rw [kpLoop] at h
    cases hcheck : checkSegs g kpset memo reject with
    | mk ok2 caches =>
      rw [hcheck] at h
      cases ok2 with
      | true =>
        simp at h
        exact ⟨(n, kpset), List.mem_cons_self _ _, h.symm⟩
      | false =>
        obtain ⟨m2, r2⟩ := caches
        simp at h
        obtain ⟨pr, hpr, hkps⟩ := ih m2 r2 kps h
        exact ⟨pr, List.mem_cons_of_mem _ hpr, hkps⟩

theorem mem_insertLe {α : Type} (le : α → α → Bool) (x a : α) :
    ∀ l : List α, a ∈ insertLe le x l ↔ a = x ∨ a ∈ l := by
  intro l
  induction l with
  | nil => simp [insertLe]
  | cons y ys ih =>
    rw [insertLe]
    by_cases hc : le x y = true
    · simp [hc]
    · simp only [if_neg hc, List.mem_cons, ih]
      tauto

theorem mem_sortByLe {α : Type} (le : α → α → Bool) (a : α) :
    ∀ l : List α, a ∈ sortByLe le l ↔ a ∈ l := by
  intro l
  induction l with
  | nil => simp [sortByLe]
  | cons x xs ih =>
    rw [sortByLe, mem_insertLe]
    simp [ih]

/-- C3 fails as stated on its own edge case: for a two-hop path the
sampler returns [(p,1) for p in P], whose gaps sum to len(P) = 2, not
len(P) - 1 = 1. -/
theorem C3_counterexample :
    find_key_points ⟨[], [], []⟩ ["a", "b"] = .ok [("a", 1), ("b", 1)] ∧
      ¬ ((([("a", 1), ("b", 1)] : List (String × Int)).map Prod.snd).sum =
        ((["a", "b"] : List String).length : Int) - 1) := by
  constructor
  · rfl
  · decide

/-- C3 (amended): for every simple path P of length at least 3 on which
find_key_points succeeds, the first keypoint's node is P[0], the last
keypoint's node is P[-1], and the gaps sum to len(P) - 1; for paths of
length at most 2 the sampler returns [(p, 1) for p in P] unchanged
(whose gaps sum to len(P), not len(P) - 1). -/
theorem C3_keypoints_amended :
    (∀ (g : DiGraph) (P : List String) (kps : List (String × Int)),
      P.Nodup → 3 ≤ P.length → find_key_points g P = .ok kps →
      (kps.headD ("", 0)).1 = P.headD ("") ∧
        (kps.getLastD ("", 0)).1 = P.getLastD ("") ∧
        (kps.map Prod.snd).sum = (P.length : Int) - 1) ∧
      (∀ (g : DiGraph) (P : List String), P.length ≤ 2 →
        find_key_points g P = .ok (keypointDefault P)) := by
  constructor
  · intro g P kps hnd h3 hok
    rw [find_key_points, if_neg (by omega)] at hok
    by_cases hcheck : check_graph_supports_path g P
    · rw [if_neg (by simp [hcheck])] at hok
      obtain ⟨⟨n, kpset⟩, hmem, hkps⟩ := kpLoop_ok g P _ _ _ _ hok
      rw [mem_sortByLe, List.mem_map] at hmem
      obtain ⟨kpset2, hkp2, heq⟩ := hmem
      have hkpeq : kpset2 = kpset := congrArg Prod.snd heq
      subst hkpeq
      obtain ⟨hne, hlens, hhead, hlast, hlinks⟩ :=
        allKp_chain P.length P kpset2 le_rfl (by omega) hkp2
      have hPne : P ≠ [] := by
        intro h0; rw [h0] at h3; simp at h3
      subst hkps
      refine ⟨?_, ?_, ?_⟩
      · cases kpset2 with
        | nil => exact absurd rfl hne
        | cons s1 srest =>
          show ((extract_keypoints (s1 :: srest) P).headD ("", 0)).1 =
            P.headD ("")
          rw [extract_keypoints]
          simpa using hhead
      · rw [extract_keypoints]
        rw [getLastD_eq_getD]
        have hlen2 : ((kpset2.map (fun p =>
            (p.headD (""),
              (P.indexOf (p.getLastD ("")) : Int)
                - (P.indexOf (p.headD ("")) : Int)))) ++
            [(P.getLastD (""), (0 : Int))]).length =
            kpset2.length + 1 := by simp
        rw [hlen2]
        rw [List.getD_eq_getElem _ _ (by simp)]
        rw [List.getElem_append_right (by simp)]
        simp
      · rw [extract_keypoints]
        rw [List.map_append, List.sum_append]
        have hmapmap : ((kpset2.map (fun p =>
            (p.headD (""),
              (P.indexOf (p.getLastD ("")) : Int)
                - (P.indexOf (p.headD ("")) : Int)))).map Prod.snd) =
            kpset2.map (fun p =>
              (P.indexOf (p.getLastD ("")) : Int)
                - (P.indexOf (p.headD ("")) : Int)) := by
          rw [List.map_map]
          rfl
        rw [hmapmap, segGapSum P kpset2 hne hlinks, hhead, hlast,
          indexOf_headD P hPne, indexOf_getLastD P hPne hnd]
        simp
        omega
    · rw [if_pos (by simp [hcheck])] at hok
      exact absurd hok (by simp)
  · intro g P hle
    rw [find_key_points, if_pos hle]

/-- Witness for C3: the amended theorem applied to the path A-B-C on
the path graph, where the sampler keeps only the endpoints. -/
theorem C3_witness :
    ([("A", (2 : Int)), ("C", 0)].headD ("", 0)).1 =
        ["A", "B", "C"].headD ("") ∧
      ([("A", (2 : Int)), ("C", 0)].getLastD ("", 0)).1 =
        ["A", "B", "C"].getLastD ("") ∧
      ([("A", (2 : Int)), ("C", 0)].map Prod.snd).sum =
        ((["A", "B", "C"] : List String).length : Int) - 1 := by
  exact C3_keypoints_amended.1
    ⟨["A", "B", "C"],
      [("A", "B"), ("B", "A"), ("B", "C"), ("C", "B")], []⟩
    ["A", "B", "C"] [("A", 2), ("C", 0)]
    (by decide) (by decide) (by rfl)

/-! ### Confinement lemmas -/

theorem mem_dedupInsert {α : Type} [DecidableEq α] (l : List α) (x y : α) :
    x ∈ dedupInsert l y ↔ x ∈ l ∨ x = y := by
  unfold dedupInsert
  by_cases h : y ∈ l
  · simp only [if_pos h]
    constructor
    · exact Or.inl
    · rintro (hx | rfl)
      · exact hx
      · exact h
  · simp [if_neg h]

theorem mem_dedupUnion {α : Type} [DecidableEq α] (x : α) :
    ∀ (xs l : List α), x ∈ dedupUnion l xs ↔ x ∈ l ∨ x ∈ xs := by
  intro xs
  induction xs with
  | nil => intro l; simp [dedupUnion]
  | cons a t ih =>
    intro l
    show x ∈ dedupUnion (dedupInsert l a) t ↔ _
    rw [ih, mem_dedupInsert]
    simp
    tauto

theorem mem_dedupKeepFirst {α : Type} [DecidableEq α] (x : α) (l : List α) :
    x ∈ dedupKeepFirst l ↔ x ∈ l := by
  unfold dedupKeepFirst
  rw [mem_dedupUnion]
  simp

theorem mem_succ (g : DiGraph) (a b : String) :
    b ∈ g.succ a ↔ (a, b) ∈ g.edgesL := by
  unfold DiGraph.succ
  rw [List.mem_map]
  constructor
  · rintro ⟨⟨u, v⟩, he, rfl⟩
    rw [List.mem_filter] at he
    have hu : u = a := by simpa using he.2
    subst hu
    exact he.1
  · intro h
    refine ⟨(a, b), ?_, rfl⟩
    rw [List.mem_filter]
    exact ⟨h, by simp⟩

theorem exists_crossing :
    ∀ (p : List String) (region : List String),
      p ≠ [] → p.headD ("") ∈ region → ¬ p.getLastD ("") ∈ region →
      ∃ uv ∈ p.zip p.tail, uv.1 ∈ region ∧ ¬ uv.2 ∈ region := by
  intro p
  induction p with
  | nil => intro region h; exact absurd rfl h
  | cons a rest ih =>
    intro region _ hhead hlast
    simp only [List.headD_cons] at hhead
    cases rest with
    | nil => simp at hlast; exact absurd hhead hlast
    | cons b rest2 =>
      by_cases hb : b ∈ region
      · have hlast2 : ¬ (b :: rest2).getLastD ("") ∈ region := by
          rwa [getLastD_cons_of_ne a _ _ (by simp)] at hlast
        obtain ⟨uv, huv, hm⟩ := ih region (by simp) (by simpa using hb) hlast2
        refine ⟨uv, ?_, hm⟩
        show uv ∈ (a, b) :: (b :: rest2).zip (b :: rest2).tail
        exact List.mem_cons_of_mem _ huv
      · exact ⟨(a, b), List.mem_cons_self _ _, hhead, hb⟩

theorem crossAccum_spec (node : String) :
    ∀ (vs : List String) (acc : List (String × String)),
      (∀ uv ∈ acc,
        uv ∈ vs.foldl
          (fun a v => if (node, v) ∈ a then a else a ++ [(node, v)]) acc) ∧
      (∀ v ∈ vs, (node, v) ∈ vs.foldl
          (fun a v => if (node, v) ∈ a then a else a ++ [(node, v)]) acc) ∧
      (∀ uv ∈ vs.foldl
          (fun a v => if (node, v) ∈ a then a else a ++ [(node, v)]) acc,
        uv ∈ acc ∨ ∃ v ∈ vs, uv = (node, v)) := by
  intro vs
  induction vs with
  | nil => intro acc; refine ⟨fun uv h => h, by simp, fun uv h => Or.inl h⟩
  | cons v0 vt ih =>
    intro acc
    simp only [List.foldl_cons]
    by_cases hc : (node, v0) ∈ acc
    · rw [if_pos hc]
      obtain ⟨ih1, ih2, ih3⟩ := ih acc
      refine ⟨ih1, ?_, ?_⟩
      · intro v hv
        rcases List.mem_cons.1 hv with rfl | hv
        · exact ih1 _ hc
        · exact ih2 v hv
      · intro uv huv
        rcases ih3 uv huv with h | ⟨v, hv, rfl⟩
        · exact Or.inl h
        · exact Or.inr ⟨v, List.mem_cons_of_mem _ hv, rfl⟩
    · rw [if_neg hc]
      obtain ⟨ih1, ih2, ih3⟩ := ih (acc ++ [(node, v0)])
      refine ⟨?_, ?_, ?_⟩
      · intro uv huv
        exact ih1 _ (List.mem_append.2 (Or.inl huv))
      · intro v hv
        rcases List.mem_cons.1 hv with rfl | hv
        · exact ih1 _ (List.mem_append.2 (Or.inr (by simp)))
        · exact ih2 v hv
      · intro uv huv
        rcases ih3 uv huv with h | ⟨v, hv, rfl⟩
        · rcases List.mem_append.1 h with h | h
          · exact Or.inl h
          · simp at h
            exact Or.inr ⟨v0, List.mem_cons_self _ _, h⟩
        · exact Or.inr ⟨v, List.mem_cons_of_mem _ hv, rfl⟩

theorem confinementEdgesLoop_spec (graph : DiGraph) (regionSet : List String) :
    ∀ (todo : List String) (acc E : List (String × String)),
      confinementEdgesLoop graph regionSet todo acc = .ok E →
      (∀ uv ∈ acc, uv ∈ E) ∧
      (∀ a ∈ todo, ∀ b, (a, b) ∈ graph.edgesL → ¬ b ∈ regionSet →
        (a, b) ∈ E) ∧
      (∀ uv ∈ E, uv ∈ acc ∨ ¬ uv.2 ∈ regionSet) := by
  intro todo
  induction todo with
  | nil =>
    intro acc E h
    simp [confinementEdgesLoop] at h
    subst h
    exact ⟨fun uv h => h, by simp, fun uv h => Or.inl h⟩
  | cons node rest ih =>
    intro acc E h
    rw [confinementEdgesLoop] at h
    by_cases hmiss : ¬ (graph.succ node).any (fun v => v ∈ regionSet)
    · rw [if_pos (by simpa using hmiss)] at h
      exact absurd h (by simp)
    · rw [if_neg (by simpa using hmiss)] at h
      set acc2 := ((graph.succ node).filter
        (fun v => ¬ v ∈ regionSet)).foldl
        (fun a v => if (node, v) ∈ a then a else a ++ [(node, v)]) acc with hacc2
      obtain ⟨hsub, hcomp, hsound⟩ := ih acc2 E h
      obtain ⟨f1, f2, f3⟩ := crossAccum_spec node
        ((graph.succ node).filter (fun v => ¬ v ∈ regionSet)) acc
      refine ⟨?_, ?_, ?_⟩
      · intro uv huv
        exact hsub uv (f1 uv huv)
      · intro a ha b hb hbout
        rcases List.mem_cons.1 ha with rfl | ha
        · refine hsub (a, b) (f2 b ?_)
          rw [List.mem_filter]
          exact ⟨(mem_succ graph a b).2 hb, by simpa using hbout⟩
        · exact hcomp a ha b hb hbout
      · intro uv huv
        rcases hsound uv huv with h2 | h2
        · rcases f3 uv h2 with h3 | ⟨v, hv, rfl⟩
          · exact Or.inl h3
          · rw [List.mem_filter] at hv
            exact Or.inr (by simpa using hv.2)
        · exact Or.inr h2

theorem NMC_subset :
    ∀ (fuel : Nat) (g : DiGraph) (terminals : List (List String)) (k : Int)
      (nt S : List String),
      NMC fuel g terminals k nt = .ok S → ∀ v ∈ S, v ∈ nt := by
  intro fuel
  induction fuel with
  | zero => intro g t k nt S h; simp [NMC] at h
  | succ f ih =>
    intro g terminals k nt S h v hv
    simp only [NMC] at h
    split at h
    · simp at h
    · split at h
      · rename_i w h2
        split at h
        · rename_i res hrec
          simp at h
          subst h
          rcases List.mem_append.1 hv with hv | hv
          · exact List.mem_of_mem_erase (ih _ _ _ _ _ hrec v hv)
          · simp at hv
            subst hv
            exact List.mem_of_find?_eq_some h2
        · simp at h
      · rename_i h2
        split at h
        · simp at h
        · split at h
          · simp at h
          · rename_i m1 hbc
            split at h
            · simp at h
              subst h
              simp at hv
            · split at h
              · exact ih _ _ _ _ _ h v hv
              · split at h
                · simp at h
                · rename_i u us hu
                  have humem : u ∈ nt :=
                    (List.mem_filter.1
                      (hu.symm ▸ List.mem_cons_self u us)).1
                  split at h
                  · rename_i m2 hbc2
                    split at h
                    · exact List.mem_of_mem_erase (ih _ _ _ _ _ h v hv)
                    · simp at h
                  · split at h
                    · rename_i S0 hrec
                      simp at h
                      subst h
                      rcases List.mem_append.1 hv with hv | hv
                      · exact List.mem_of_mem_erase (ih _ _ _ _ _ hrec v hv)
                      · simp at hv
                        subst hv
                        exact humem
                    · exact List.mem_of_mem_erase (ih _ _ _ _ _ h v hv)
                    · simp at h

theorem identify_keys_subset
    (edgesForKp : List (String × List (String × String)))
    (regionSet egresses : List String) :
    ∀ (todo : List String) (g : DiGraph)
      (acc : List (String × (List String × List String))),
      ∀ x ∈ (identifyRedundantNodes edgesForKp regionSet egresses todo g
        acc).map Prod.fst,
        x ∈ acc.map Prod.fst ∨ x ∈ todo := by
  intro todo
  induction todo with
  | nil =>
    intro g acc x hx
    exact Or.inl (by simpa [identifyRedundantNodes] using hx)
  | cons kp rest ih =>
    intro g acc x hx
    rw [identifyRedundantNodes] at hx
    cases hstep : identifyKeeps edgesForKp regionSet egresses g kp with
    | mk keep rest2 =>
      rw [hstep] at hx
      rcases ih _ _ x hx with h | h
      · cases keep with
        | false => exact Or.inl (by simpa using h)
        | true =>
          simp at h
          rcases h with h | h
          · exact Or.inl (by simpa using h)
          · exact Or.inr (h ▸ List.mem_cons_self _ _)
      · exact Or.inr (List.mem_cons_of_mem _ h)

theorem rrNonT_outside (graph : DiGraph) (egresses region : List String)
    (v : String) (hv : v ∈ rrNonT graph egresses region) : ¬ v ∈ region := by
  rw [rrNonT, List.mem_filter] at hv
  intro hvr
  have hvt0 : [v] ∈ rrTerm0 graph region := by
    rw [rrTerm0, List.mem_map]
    exact ⟨v, List.mem_filter.2 ⟨hv.1, by simpa using hvr⟩, rfl⟩
  have hvt : [v] ∈ rrTerminals graph egresses region := by
    rw [rrTerminals]
    by_cases he : egresses.isEmpty
    · rw [if_pos he]; exact hvt0
    · rw [if_neg he]; exact List.mem_append.2 (Or.inl hvt0)
  have hany : (rrTerminals graph egresses region).any
      (fun t => v ∈ t) := by
    rw [List.any_eq_true]
    exact ⟨[v], hvt, by simp⟩
  simp [hany] at hv

theorem rule_replacement_outside (graph : DiGraph)
    (kpInfo : List (String × (List String × List String)))
    (egresses region S : List String)
    (h : rule_replacement graph kpInfo egresses region = .ok S) :
    ∀ v ∈ S, v ∈ kpInfo.map Prod.fst ∨ ¬ v ∈ region := by
  intro v hv
  unfold rule_replacement at h
  by_cases hlt : (rrTerminals graph egresses region).length < 2
  · rw [if_pos hlt] at h
    simp at h
    subst h
    exact Or.inl hv
  · rw [if_neg hlt] at h
    cases hnmc : NMC ((rrNonT graph egresses region).length +
        (rrTerminals graph egresses region).length + 2)
        (rrGraph graph region) (rrTerminals graph egresses region)
        ((kpInfo.length : Int) - 1) (rrNonT graph egresses region) with
    | ok S0 =>
      rw [hnmc] at h
      simp at h
      subst h
      rw [mem_dedupKeepFirst] at hv
      exact Or.inr (rrNonT_outside graph egresses region v
        (NMC_subset _ _ _ _ _ _ hnmc v hv))
    | error e =>
      rw [hnmc] at h
      cases e with
      | noReduction =>
        simp at h
        subst h
        exact Or.inl hv
      | pythonError => simp at h
      | fuelOut => simp at h

/-- C4 fails as stated for optimization level 2: on a region with a
one-way leak towards a sink egress, the redundancy pruning drops the
only keypoint and NMC fails with CutTooBig at k = -1, so
find_confinement_relaxed returns the empty set although the path
r2 -> x -> e still connects the region to the egress e. -/
theorem C4_counterexample :
    find_confinement_relaxed
        ⟨["r1", "r2", "x", "e"],
          [("r1", "r2"), ("r2", "r1"), ("r2", "x"), ("x", "e")], ["e"]⟩
        ["r1", "r2"] = .ok [] ∧
      check_graph_supports_path
        ⟨["r1", "r2", "x", "e"],
          [("r1", "r2"), ("r2", "r1"), ("r2", "x"), ("x", "e")], ["e"]⟩
        ["r2", "x", "e"] = true ∧
      "r2" ∈ (["r1", "r2"] : List String) ∧
      "e" ∈ (["e"] : List String) ∧
      ¬ "e" ∈ (["r1", "r2"] : List String) ∧
      ∀ n ∈ (["r2", "x", "e"] : List String), ¬ n ∈ ([] : List String) := by
  refine ⟨by rfl, by rfl, by decide, by decide, by decide, by decide⟩

/-- C4 (amended): at optimization level 1 (find_confinement_region)
the returned nodes lie outside the region and removing them cuts every
graph path from a region node to a node outside the region, hence to
every egress; at level 2 (find_confinement_relaxed) the returned nodes
still lie outside the region, but removing them need not disconnect
the region from the egresses. -/
theorem C4_confinement_amended :
    (∀ (graph : DiGraph) (region : List String) (S : List String),
      find_confinement_region graph region = .ok S →
      (∀ v ∈ S, ¬ v ∈ region) ∧
      (∀ p : List String, p ≠ [] →
        check_graph_supports_path graph p = true →
        p.headD ("") ∈ region → ¬ p.getLastD ("") ∈ region →
        ∃ v ∈ S, v ∈ p)) ∧
    (∀ (graph : DiGraph) (region : List String) (S : List String),
      find_confinement_relaxed graph region = .ok S →
      ∀ v ∈ S, ¬ v ∈ region) := by
  have hlevel1 : ∀ (graph : DiGraph) (region : List String)
      (S : List String),
      find_confinement_region graph region = .ok S →
      (∀ v ∈ S, ¬ v ∈ region) ∧
      (∀ p : List String, p ≠ [] →
        check_graph_supports_path graph p = true →
        p.headD ("") ∈ region → ¬ p.getLastD ("") ∈ region →
        ∃ v ∈ S, v ∈ p) := by
    intro graph region S h
    unfold find_confinement_region at h
    cases hedges : find_confinement_edges graph region with
    | error e => rw [hedges] at h; simp at h
    | ok E =>
      rw [hedges] at h
      simp at h
      subst h
      unfold find_confinement_edges at hedges
      obtain ⟨-, hcomp, hsound⟩ :=
        confinementEdgesLoop_spec graph region region [] E hedges
      constructor
      · intro v hv
        rw [mem_dedupKeepFirst, List.mem_map] at hv
        obtain ⟨uv, huv, rfl⟩ := hv
        rcases hsound uv huv with h2 | h2
        · simp at h2
        · exact h2
      · intro p hpne hpath hhead hlast
        obtain ⟨uv, huv, hu, hvout⟩ := exists_crossing p region hpne hhead hlast
        have hedge : (uv.1, uv.2) ∈ graph.edgesL := by
          unfold check_graph_supports_path at hpath
          rw [List.all_eq_true] at hpath
          have := hpath uv huv
          unfold DiGraph.hasEdge at this
          simpa [List.elem_iff] using this
        have hinE : (uv.1, uv.2) ∈ E := hcomp uv.1 hu uv.2 hedge hvout
        refine ⟨uv.2, ?_, ?_⟩
        · rw [mem_dedupKeepFirst, List.mem_map]
          exact ⟨(uv.1, uv.2), hinE, rfl⟩
        · have hz : uv.1 ∈ p ∧ uv.2 ∈ p.tail := by
            obtain ⟨u2, v2⟩ := uv
            exact List.of_mem_zip huv
          exact List.mem_of_mem_tail hz.2
  refine ⟨hlevel1, ?_⟩
  intro graph region S h v hv
  unfold find_confinement_relaxed at h
  cases hnodes : find_confinement_region graph region with
  | error e => rw [hnodes] at h; simp at h
  | ok nodes =>
    rw [hnodes] at h
    simp only at h
    have houtside :=
      rule_replacement_outside graph _ _ region S h v hv
    rcases houtside with hk | hout
    · rw [List.mem_map] at hk
      obtain ⟨entry, hentry, rfl⟩ := hk
      have hkey := identify_keys_subset _ region
        (graph.egresses.filter (fun e => ¬ e ∈ region)) nodes
        (removeNodesFrom (digraphOfEdges graph.edgesL) nodes) []
        entry.1 (List.mem_map_of_mem _ hentry)
      rcases hkey with hkey | hkey
      · simp at hkey
      · exact (hlevel1 graph region nodes hnodes).1 entry.1 hkey
    · exact hout

/-- Witness for C4: the amended theorem applied to the directed leak
graph, level 1: the confinement set {x} lies outside the region and
meets the leak path r2 -> x -> e. -/
theorem C4_witness :
    (∀ v ∈ (["x"] : List String), ¬ v ∈ (["r1", "r2"] : List String)) ∧
      ∃ v ∈ (["x"] : List String), v ∈ (["r2", "x", "e"] : List String) := by
  have h := C4_confinement_amended.1
    ⟨["r1", "r2", "x", "e"],
      [("r1", "r2"), ("r2", "r1"), ("r2", "x"), ("x", "e")], ["e"]⟩
    ["r1", "r2"] ["x"] (by rfl)
  exact ⟨h.1, h.2 ["r2", "x", "e"] (by decide) (by rfl) (by decide) (by decide)⟩

/-- C5: the bounded cut routine computes edge connectivity, not node
connectivity.  On the butterfly graph the two s-t paths share only the
node m, so removing the single node m disconnects s from t (minimum
node cut 1), yet the routine finds two edge-disjoint augmenting paths:
with k = 1 it raises CutTooBig instead of returning 1, and with k = 2
it returns 2. -/
theorem C5_bounded_cut_edge_not_node :
    boundedMinimalVertexCut
        ⟨["s", "a", "m", "b", "t", "c", "d"],
          [("s", "a"), ("a", "m"), ("m", "b"), ("b", "t"), ("s", "c"),
            ("c", "m"), ("m", "d"), ("d", "t")], []⟩
        ["s"] ["t"] 1 = .error () ∧
      boundedMinimalVertexCut
        ⟨["s", "a", "m", "b", "t", "c", "d"],
          [("s", "a"), ("a", "m"), ("m", "b"), ("b", "t"), ("s", "c"),
            ("c", "m"), ("m", "d"), ("d", "t")], []⟩
        ["s"] ["t"] 2 = .ok 2 ∧
      reachableB
        ⟨["s", "a", "m", "b", "t", "c", "d"],
          [("s", "a"), ("a", "m"), ("m", "b"), ("b", "t"), ("s", "c"),
            ("c", "m"), ("m", "d"), ("d", "t")], []⟩ "s" "t" = true ∧
      reachableB
        (copyGraphRemoveNode
          ⟨["s", "a", "m", "b", "t", "c", "d"],
            [("s", "a"), ("a", "m"), ("m", "b"), ("b", "t"), ("s", "c"),
              ("c", "m"), ("m", "d"), ("d", "t")], []⟩ "m") "s" "t" = false ∧
      ¬ "m" ∈ (["s"] : List String) ∧ ¬ "m" ∈ (["t"] : List String) := by
  exact ⟨by rfl, by rfl, by rfl, by rfl, by decide, by decide⟩


/-- Witness for C8: the concrete-region clause applied to a two-hop
region, plus the ECMP expansion of the wildcard region [A,->,C]. -/
theorem C8_witness :
    resolve_region ⟨[], fun _ _ => []⟩ ["A", "B"] = .ok (some [["A", "B"]]) ∧
      resolve_region
          ⟨[], fun u v =>
            if u = "A" ∧ v = "C" then [["A", "B", "C"], ["A", "L", "C"]]
            else []⟩
          ["A", ARROW, "C"] =
        .ok (some [["A", "B", "C"], ["A", "L", "C"]]) := by
  constructor
  · have h := C8_resolve_region_concrete ⟨[], fun _ _ => []⟩ ["A", "B"]
      (by decide)
    simpa using h
  · rfl

/-! ### Shortest-path tree lemmas: dictionaries and paths -/

theorem alookup_aset_self {α β : Type} [DecidableEq α] :
    ∀ (l : List (α × β)) (k : α) (v : β),
      alookup (aset l k v) k = some v := by
  intro l
  induction l with
  | nil => intro k v; simp [aset, alookup]
  | cons p t ih =>
    intro k v
    obtain ⟨a, b⟩ := p
    by_cases h : a = k
    · subst h; simp [aset, alookup]
    · simp only [aset, if_neg h, alookup]
      exact ih k v

theorem alookup_aset_ne {α β : Type} [DecidableEq α] :
    ∀ (l : List (α × β)) (k k2 : α) (v : β), k2 ≠ k →
      alookup (aset l k v) k2 = alookup l k2 := by
  intro l
  induction l with
  | nil =>
    intro k k2 v hne
    simp [aset, alookup, Ne.symm hne]
  | cons p t ih =>
    intro k k2 v hne
    obtain ⟨a, b⟩ := p
    by_cases h : a = k
    · subst h
      simp only [aset, if_pos rfl, alookup]
      rw [if_neg (Ne.symm hne), if_neg (Ne.symm hne)]
    · simp only [aset, if_neg h, alookup]
      by_cases h2 : a = k2
      · rw [if_pos h2, if_pos h2]
      · rw [if_neg h2, if_neg h2]
        exact ih k k2 v hne

theorem pathCost_cons_cons (g : WGraph) (u v : String) (rest : List String) :
    pathCost g (u :: v :: rest) =
      match g.weight u v, pathCost g (v :: rest) with
      | some w, some c => some (w + c)
      | _, _ => none := rfl

theorem pathCost_nonneg (g : WGraph)
    (hpos : ∀ u v w, g.weight u v = some w → 0 < w) :
    ∀ (p : List String) (c : Int), pathCost g p = some c → 0 ≤ c := by
  intro p
  induction p with
  | nil => intro c h; simp [pathCost] at h
  | cons x rest ih =>
    intro c h
    cases rest with
    | nil => simp [pathCost] at h; omega
    | cons y rest2 =>
      rw [pathCost_cons_cons] at h
      cases hw : g.weight x y with
      | none => rw [hw] at h; simp at h
      | some w =>
        rw [hw] at h
        cases hc : pathCost g (y :: rest2) with
        | none => rw [hc] at h; simp at h
        | some c2 =>
          rw [hc] at h
          simp at h
          have h1 := hpos x y w hw
          have h2 := ih c2 hc
          omega

theorem headD_append_left {α : Type} (q r : List α) (d : α)
    (h : q ≠ []) : (q ++ r).headD d = q.headD d := by
  cases q with
  | nil => exact absurd rfl h
  | cons a t => simp

theorem pathCost_append (g : WGraph) :
    ∀ (q : List String) (u w : String) (cq wt : Int), q ≠ [] →
      q.getLastD ("") = u → pathCost g q = some cq →
      g.weight u w = some wt →
      pathCost g (q ++ [w]) = some (cq + wt) := by
  intro q
  induction q with
  | nil => intro u w cq wt h; exact absurd rfl h
  | cons x rest ih =>
    intro u w cq wt _ hlast hcost hwt
    cases rest with
    | nil =>
      simp at hlast
      subst hlast
      simp [pathCost] at hcost
      subst hcost
      show pathCost g (x :: w :: []) = some (0 + wt)
      rw [pathCost_cons_cons, hwt]
      have h0 : pathCost g [w] = some 0 := rfl
      rw [h0]
      exact congrArg some (by omega)
    | cons y rest2 =>
      rw [pathCost_cons_cons] at hcost
      cases hw : g.weight x y with
      | none => rw [hw] at hcost; simp at hcost
      | some wxy =>
        rw [hw] at hcost
        cases hc : pathCost g (y :: rest2) with
        | none => rw [hc] at hcost; simp at hcost
        | some c2 =>
          rw [hc] at hcost
          simp at hcost
          have hlast2 : (y :: rest2).getLastD ("") = u := by
            rwa [getLastD_cons_of_ne x _ _ (by simp)] at hlast
          have hrec := ih u w c2 wt (by simp) hlast2 hc hwt
          have hstep : pathCost g ((x :: y :: rest2) ++ [w]) =
              match g.weight x y, pathCost g ((y :: rest2) ++ [w]) with
              | some w0, some c => some (w0 + c)
              | _, _ => none := rfl
          rw [hstep, hw, hrec]
          show some (wxy + (c2 + wt)) = some (cq + wt)
          exact congrArg some (by omega)

theorem isPath_single (g : WGraph) (s : String) :
    IsPathFromTo g s s [s] ∧ pathCost g [s] = some 0 := by
  refine ⟨⟨by simp, by simp, by simp, ?_⟩, rfl⟩
  simp [pathCost]

theorem isPath_append (g : WGraph) (s u w : String) (q : List String)
    (wt : Int) (hq : IsPathFromTo g s u q) (hw : g.weight u w = some wt) :
    IsPathFromTo g s w (q ++ [w]) := by
  obtain ⟨hne, hhead, hlast, hcost⟩ := hq
  obtain ⟨cq, hcq⟩ := Option.isSome_iff_exists.1 hcost
  refine ⟨by simp, ?_, ?_, ?_⟩
  · rw [headD_append_left _ _ _ hne]; exact hhead
  · rw [getLastD_eq_getD]
    simp [List.getD_eq_getElem?_getD]
  · rw [pathCost_append g q u w cq wt hne hlast hcq hw]
    simp

theorem path_decompose (g : WGraph) :
    ∀ (p : List String) (s t : String), IsPathFromTo g s t p →
      2 ≤ p.length →
      ∃ q u wt cq, IsPathFromTo g s u q ∧ g.weight u t = some wt ∧
        p = q ++ [t] ∧ pathCost g q = some cq ∧
        pathCost g p = some (cq + wt) := by
  intro p
  induction p with
  | nil => intro s t h _; exact absurd rfl h.1
  | cons x rest ih =>
    intro s t hp hlen
    obtain ⟨-, hhead, hlast, hcost⟩ := hp
    simp only [List.headD_cons] at hhead
    subst hhead
    cases rest with
    | nil => simp at hlen
    | cons y rest2 =>
      obtain ⟨cp, hcp⟩ := Option.isSome_iff_exists.1 hcost
      rw [pathCost_cons_cons] at hcp
      cases hw : g.weight x y with
      | none => rw [hw] at hcp; simp at hcp
      | some wxy =>
        rw [hw] at hcp
        cases hc : pathCost g (y :: rest2) with
        | none => rw [hc] at hcp; simp at hcp
        | some c2 =>
          rw [hc] at hcp
          simp at hcp
          cases rest2 with
          | nil =>
            simp at hlast
            subst hlast
            simp [pathCost] at hc
            subst hc
            refine ⟨[x], x, wxy, 0, (isPath_single g x).1, hw, by simp,
              rfl, ?_⟩
            rw [pathCost_cons_cons, hw]
            have h0 : pathCost g [y] = some 0 := rfl
            rw [h0]
            exact congrArg some (by omega)
          | cons z rest3 =>
            have hsub : IsPathFromTo g y t (y :: z :: rest3) := by
              refine ⟨by simp, by simp, ?_, by rw [hc]; simp⟩
              rwa [getLastD_cons_of_ne x _ _ (by simp)] at hlast
            obtain ⟨q2, u, wt, cq2, hq2, hwt, heq, hcq2, hcp2⟩ :=
              ih y t hsub (by simp)
            have hq2ne : q2 ≠ [] := hq2.1
            refine ⟨x :: q2, u, wt, wxy + cq2, ?_, hwt, ?_, ?_, ?_⟩
            · obtain ⟨-, hh2, hl2, hc2⟩ := hq2
              refine ⟨by simp, by simp, ?_, ?_⟩
              · rwa [getLastD_cons_of_ne x _ _ hq2ne]
              · obtain ⟨cc, hcc⟩ := Option.isSome_iff_exists.1 hc2
                cases q2 with
                | nil => exact absurd rfl hq2ne
                | cons y2 q3 =>
                  simp at hh2
                  subst hh2
                  rw [pathCost_cons_cons, hw, hcc]
                  simp
            · rw [heq]; simp
            · cases q2 with
              | nil => exact absurd rfl hq2ne
              | cons y2 q3 =>
                have hh2 : y2 = y := by simpa using hq2.2.1
                subst hh2
                rw [pathCost_cons_cons, hw, hcq2]
            · have hceq : c2 = cq2 + wt := by
                rw [hc] at hcp2
                exact Option.some.inj hcp2
              rw [pathCost_cons_cons, hw, hc]
              simp
              omega

/-! ### Association-list facts for the SPT proofs -/

theorem alookup_mem {α β : Type} [DecidableEq α] :
    ∀ (l : List (α × β)) (k : α) (x : β),
      alookup l k = some x → (k, x) ∈ l := by
  intro l
  induction l with
  | nil => intro k x h; simp [alookup] at h
  | cons p t ih =>
    intro k x h
    obtain ⟨a, b⟩ := p
    by_cases ha : a = k
    · subst ha
      simp [alookup] at h
      subst h
      exact List.mem_cons_self _ _
    · simp only [alookup, if_neg ha] at h
      exact List.mem_cons_of_mem _ (ih k x h)

theorem alookup_none_iff {α β : Type} [DecidableEq α] :
    ∀ (l : List (α × β)) (k : α),
      alookup l k = none ↔ k ∉ l.map Prod.fst := by
  intro l
  induction l with
  | nil => intro k; simp [alookup]
  | cons p t ih =>
    intro k
    obtain ⟨a, b⟩ := p
    by_cases ha : a = k
    · subst ha; simp [alookup]
    · simp only [alookup, if_neg ha, List.map_cons, List.mem_cons]
      rw [ih]
      constructor
      · intro h hk
        rcases hk with hk | hk
        · exact ha hk.symm
        · exact h hk
      · intro h
        exact fun hk => h (Or.inr hk)

theorem mem_alookup_of_nodup {α β : Type} [DecidableEq α] :
    ∀ (l : List (α × β)) (k : α) (x : β),
      (l.map Prod.fst).Nodup → (k, x) ∈ l → alookup l k = some x := by
  intro l
  induction l with
  | nil => intro k x _ h; simp at h
  | cons p t ih =>
    intro k x hnd h
    obtain ⟨a, b⟩ := p
    simp only [List.map_cons, List.nodup_cons] at hnd
    rcases List.mem_cons.1 h with h | h
    · obtain ⟨h1, h2⟩ := Prod.mk.injEq .. ▸ h
      simp only [Prod.mk.injEq] at h
      obtain ⟨rfl, rfl⟩ := h
      simp [alookup]
    · by_cases ha : a = k
      · subst ha
        exact absurd (List.mem_map_of_mem Prod.fst h) hnd.1
      · simp only [alookup, if_neg ha]
        exact ih k x hnd.2 h

theorem alookup_append {α β : Type} [DecidableEq α] :
    ∀ (l1 l2 : List (α × β)) (k : α),
      alookup (l1 ++ l2) k =
        match alookup l1 k with
        | some x => some x
        | none => alookup l2 k := by
  intro l1
  induction l1 with
  | nil => intro l2 k; simp [alookup]
  | cons p t ih =>
    intro l2 k
    obtain ⟨a, b⟩ := p
    by_cases ha : a = k
    · subst ha; simp [alookup]
    · simp only [List.cons_append, alookup, if_neg ha]
      exact ih l2 k

theorem alookup_map_self {α β : Type} [DecidableEq α] (f : α → β) :
    ∀ (l : List α) (k : α), k ∈ l →
      alookup (l.map (fun n => (n, f n))) k = some (f k) := by
  intro l
  induction l with
  | nil => intro k h; simp at h
  | cons a t ih =>
    intro k h
    by_cases ha : a = k
    · subst ha; simp [alookup]
    · rcases List.mem_cons.1 h with h | h
      · exact absurd h.symm ha
      · simp only [List.map_cons, alookup, if_neg ha]
        exact ih k h

/-! ### The heap model -/

theorem heapLe_iff (a b : Int × Nat × String) :
    heapLe a b = true ↔ HeapLePr a b := by
  simp [heapLe, HeapLePr]

theorem heapLe_total (a b : Int × Nat × String)
    (h : heapLe a b = false) : HeapLePr b a := by
  rw [← heapLe_iff]
  simp only [heapLe] at h ⊢
  simp only [Bool.or_eq_false_iff, Bool.and_eq_false_iff,
    decide_eq_false_iff_not, beq_eq_false_iff_ne] at h
  simp only [Bool.or_eq_true, Bool.and_eq_true, decide_eq_true_iff,
    beq_iff_eq]
  rcases h with ⟨h1, h2⟩
  rcases h2 with h2 | h2
  · omega
  · rcases eq_or_ne a.1 b.1 with he | he
    · right; exact ⟨he.symm, by omega⟩
    · left; omega

theorem heapLePr_trans {a b c : Int × Nat × String}
    (h1 : HeapLePr a b) (h2 : HeapLePr b c) : HeapLePr a c := by
  simp only [HeapLePr] at *
  rcases h1 with h1 | h1 <;> rcases h2 with h2 | h2
  · left; omega
  · left; omega
  · left; omega
  · right; exact ⟨h1.1.trans h2.1, h1.2.trans h2.2⟩

theorem foldlMin_spec :
    ∀ (xs : List (Int × Nat × String)) (x : Int × Nat × String),
      (xs.foldl (fun acc y => if heapLe acc y then acc else y) x = x ∨
        xs.foldl (fun acc y => if heapLe acc y then acc else y) x ∈ xs) ∧
      HeapLePr (xs.foldl (fun acc y => if heapLe acc y then acc else y) x)
        x ∧
      ∀ y ∈ xs,
        HeapLePr
          (xs.foldl (fun acc y => if heapLe acc y then acc else y) x) y := by
  intro xs
  induction xs with
  | nil =>
    intro x
    refine ⟨Or.inl rfl, ?_, by simp⟩
    simp [HeapLePr]
  | cons z t ih =>
    intro x
    simp only [List.foldl_cons]
    by_cases hz : heapLe x z = true
    · rw [if_pos hz]
      obtain ⟨hmem, hle, hall⟩ := ih x
      refine ⟨?_, hle, ?_⟩
      · rcases hmem with h | h
        · exact Or.inl h
        · exact Or.inr (List.mem_cons_of_mem _ h)
      · intro y hy
        rcases List.mem_cons.1 hy with rfl | hy
        · exact heapLePr_trans hle ((heapLe_iff _ _).1 hz)
        · exact hall y hy
    · rw [if_neg hz]
      obtain ⟨hmem, hle, hall⟩ := ih z
      have hzx : HeapLePr z x := heapLe_total x z (by simpa using hz)
      refine ⟨?_, heapLePr_trans hle hzx, ?_⟩
      · rcases hmem with h | h
        · exact Or.inr (by rw [h]; exact List.mem_cons_self _ _)
        · exact Or.inr (List.mem_cons_of_mem _ h)
      · intro y hy
        rcases List.mem_cons.1 hy with rfl | hy
        · exact hle
        · exact hall y hy

theorem popMin_spec (x : Int × Nat × String)
    (xs : List (Int × Nat × String)) :
    ∃ m rest, popMin (x :: xs) = some (m, rest) ∧ m ∈ x :: xs ∧
      rest = (x :: xs).erase m ∧ ∀ y ∈ x :: xs, HeapLePr m y := by
  obtain ⟨hmem, hle, hall⟩ := foldlMin_spec xs x
  refine ⟨_, _, rfl, ?_, rfl, ?_⟩
  · rcases hmem with h | h
    · rw [h]; exact List.mem_cons_self _ _
    · exact List.mem_cons_of_mem _ h
  · intro y hy
    rcases List.mem_cons.1 hy with rfl | hy
    · exact hle
    · exact hall y hy

/-! ### Candidate sets -/

theorem mem_extend_paths_list (ps : List (List String)) (w : String)
    (p : List String) :
    p ∈ extend_paths_list ps w ↔ ∃ q ∈ ps, p = q ++ [w] := by
  simp [extend_paths_list, List.mem_map, eq_comm]

theorem cand_mono (g : WGraph) (src : String)
    (dist : List (String × Int)) (v : String) (d : Int)
    (hv : alookup dist v = none) (w : String) (c : Int)
    (h : Cand g src dist w c) : Cand g src (aset dist v d) w c := by
  rcases h with h | ⟨u, du, wt, h1, h2, h3⟩
  · exact Or.inl h
  · refine Or.inr ⟨u, du, wt, ?_, h2, h3⟩
    have : u ≠ v := fun he => by rw [he, hv] at h1; exact absurd h1 (by simp)
    rw [alookup_aset_ne dist v u d this]
    exact h1

theorem candP_nil (g : WGraph) (src v : String) (d : Int)
    (dist : List (String × Int)) (w : String) (c : Int) :
    CandP g src v d dist [] w c ↔ Cand g src dist w c := by
  simp [CandP, alookup]

theorem candP_full (g : WGraph) (src v : String) (d : Int)
    (dist : List (String × Int)) (hv : alookup dist v = none)
    (w : String) (c : Int) :
    CandP g src v d dist (g.nbrs v) w c ↔
      Cand g src (aset dist v d) w c := by
  constructor
  · intro h
    rcases h with h | ⟨wt, h1, h2⟩
    · exact cand_mono g src dist v d hv w c h
    · exact Or.inr ⟨v, d, wt, alookup_aset_self dist v d, h1, h2⟩
  · intro h
    rcases h with h | ⟨u, du, wt, h1, h2, h3⟩
    · exact Or.inl (Or.inl h)
    · by_cases hu : u = v
      · subst hu
        rw [alookup_aset_self dist u d] at h1
        obtain rfl : d = du := Option.some.inj h1
        exact Or.inr ⟨wt, h2, h3⟩
      · rw [alookup_aset_ne dist v u d hu] at h1
        exact Or.inl (Or.inr ⟨u, du, wt, h1, h2, h3⟩)

/-! ### The cut argument: any path to an unsettled node passes a seen
unsettled node of no larger seen value -/

theorem cut_lemma (g : WGraph)
    (hpos : ∀ u v w, g.weight u v = some w → 0 < w)
    (src : String) (dist seen : List (String × Int))
    (hSeenNone : ∀ w, alookup seen w = none → ∀ c, ¬ Cand g src dist w c)
    (hSeenMin : ∀ w sw, alookup seen w = some sw →
      ∀ c, Cand g src dist w c → sw ≤ c)
    (hDistMin : ∀ u du, alookup dist u = some du →
      ∀ p c, IsPathFromTo g src u p → pathCost g p = some c → du ≤ c) :
    ∀ (n : Nat) (p : List String) (w : String) (c : Int),
      p.length ≤ n → IsPathFromTo g src w p → pathCost g p = some c →
      alookup dist w = none →
      ∃ z sz, alookup dist z = none ∧ alookup seen z = some sz ∧
        sz ≤ c := by
  intro n
  induction n with
  | zero =>
    intro p w c hlen hp _ _
    cases p with
    | nil => exact absurd rfl hp.1
    | cons a t => simp at hlen
  | succ n ih =>
    intro p w c hlen hp hc hw
    by_cases h2 : 2 ≤ p.length
    · obtain ⟨q, u, wt, cq, hq, hwt, heq, hcq, hcp⟩ :=
        path_decompose g p src w hp h2
      have hceq : c = cq + wt := Option.some.inj (hc.symm.trans hcp)
      cases hu : alookup dist u with
      | some du =>
        have hcand : Cand g src dist w (du + wt) :=
          Or.inr ⟨u, du, wt, hu, hwt, rfl⟩
        cases hsw : alookup seen w with
        | none => exact absurd hcand (hSeenNone w hsw _)
        | some sw =>
          have hle1 : sw ≤ du + wt := hSeenMin w sw hsw _ hcand
          have hle2 : du ≤ cq := hDistMin u du hu q cq hq hcq
          exact ⟨w, sw, hw, hsw, by omega⟩
      | none =>
        have hwt0 : 0 < wt := hpos u w wt hwt
        have hqlen : q.length ≤ n := by
          have hl := congrArg List.length heq
          simp at hl
          omega
        obtain ⟨z, sz, hz1, hz2, hz3⟩ := ih q u cq hqlen hq hcq hu
        exact ⟨z, sz, hz1, hz2, by omega⟩
    · obtain ⟨hne, hhead, hlast, _⟩ := hp
      cases p with
      | nil => exact absurd rfl hne
      | cons a t =>
        cases t with
        | cons b t2 => simp at h2
        | nil =>
          simp at hhead hlast
          have hwsrc : w = src := by rw [← hlast, hhead]
          have hc0 : c = 0 := by
            simp [pathCost] at hc
            omega
          have hcand : Cand g src dist w 0 := Or.inl ⟨hwsrc, rfl⟩
          cases hsw : alookup seen w with
          | none => exact absurd hcand (hSeenNone w hsw _)
          | some sw =>
            have : sw ≤ 0 := hSeenMin w sw hsw _ hcand
            exact ⟨w, sw, hw, hsw, by omega⟩

/-! ### Settling the popped node -/

theorem settle_ok (g : WGraph)
    (hpos : ∀ u v w, g.weight u v = some w → 0 < w)
    (src : String) (fringe : List (Int × Nat × String))
    (dist seen : List (String × Int))
    (paths : List (String × List (List String)))
    (hinv : SptInv g src fringe dist seen paths)
    (d : Int) (cnt : Nat) (v : String)
    (hm : (d, cnt, v) ∈ fringe)
    (hmin : ∀ y ∈ fringe, HeapLePr (d, cnt, v) y)
    (hv : alookup dist v = none) :
    alookup seen v = some d ∧ ShortestDist g src v d ∧ 0 ≤ d ∧
      (∀ u du, alookup dist u = some du → du ≤ d) ∧
      ∃ pv, alookup paths v = some pv ∧
        ∀ p, p ∈ pv ↔ (IsPathFromTo g src v p ∧ pathCost g p = some d) := by
  have hcandv : Cand g src dist v d := hinv.fringeCand (d, cnt, v) hm
  -- the popped distance is the seen value
  have hsv : alookup seen v = some d := by
    cases hsv : alookup seen v with
    | none => exact absurd hcandv (hinv.seenNone v hsv _)
    | some sv =>
      have h1 : sv ≤ d := (hinv.seenMin v sv hsv).2 d hcandv
      obtain ⟨c2, hin⟩ := hinv.fringeComplete v sv hsv hv
      have h2 := hmin (sv, c2, v) hin
      simp only [HeapLePr] at h2
      have : d = sv := by rcases h2 with h2 | h2 <;> omega
      rw [this]
  have hdmax : ∀ u du, alookup dist u = some du → du ≤ d :=
    fun u du h => hinv.fringeHigh (d, cnt, v) hm u du h
  -- minimality of d over all src-to-v paths
  have hminpath : ∀ p c, IsPathFromTo g src v p → pathCost g p = some c →
      d ≤ c := by
    intro p c hp hc
    obtain ⟨z, sz, hz1, hz2, hz3⟩ :=
      cut_lemma g hpos src dist seen hinv.seenNone
        (fun w sw h c hc => (hinv.seenMin w sw h).2 c hc)
        (fun u du h p c hp hc => ((hinv.distOk u du h).1).2 p c hp hc)
        p.length p v c le_rfl hp hc hv
    obtain ⟨cz, hzin⟩ := hinv.fringeComplete z sz hz2 hz1
    have h2 := hmin (sz, cz, z) hzin
    simp only [HeapLePr] at h2
    rcases h2 with h2 | h2 <;> omega
  -- an achieving path
  have hachieve : ∃ p, IsPathFromTo g src v p ∧ pathCost g p = some d := by
    rcases hcandv with ⟨hvsrc, hd0⟩ | ⟨u, du, wt, hu, hwt, hd⟩
    · subst hvsrc
      exact ⟨[v], hd0 ▸ isPath_single g v⟩
    · obtain ⟨hsd, -, -⟩ := hinv.distOk u du hu
      obtain ⟨p0, hp0, hc0⟩ := hsd.1
      refine ⟨p0 ++ [v], isPath_append g src u v p0 wt hp0 hwt, ?_⟩
      rw [pathCost_append g p0 u v du wt hp0.1 hp0.2.2.1 hc0 hwt, hd]
  have hsd : ShortestDist g src v d := ⟨hachieve, hminpath⟩
  have hd0 : 0 ≤ d := by
    obtain ⟨p, -, hc⟩ := hachieve
    exact pathCost_nonneg g hpos p d hc
  refine ⟨hsv, hsd, hd0, hdmax, ?_⟩
  obtain ⟨pv, hpv, hchar⟩ := hinv.pathsSpec v d hsv
  refine ⟨pv, hpv, fun p => ?_⟩
  constructor
  · intro hmem
    rcases (hchar p).1 hmem with ⟨hvsrc, rfl⟩ |
        ⟨u, du, wt, q, pu, hu, hwt, hsum, hpu, hq, rfl⟩
    · subst hvsrc
      have hdz : d = 0 := by
        have h1 := hminpath [v] 0 (isPath_single g v).1 (isPath_single g v).2
        omega
      exact hdz ▸ isPath_single g v
    · obtain ⟨-, -, ⟨pu2, hpu2, hchu⟩⟩ := hinv.distOk u du hu
      rw [hpu] at hpu2
      obtain rfl : pu = pu2 := Option.some.inj hpu2
      obtain ⟨hqp, hqc⟩ := (hchu q).1 hq
      refine ⟨isPath_append g src u v q wt hqp hwt, ?_⟩
      rw [pathCost_append g q u v du wt hqp.1 hqp.2.2.1 hqc hwt, hsum]
  · intro ⟨hp, hc⟩
    rw [hchar p]
    by_cases h2 : 2 ≤ p.length
    · obtain ⟨q, u, wt, cq, hq, hwt, heq, hcq, hcp⟩ :=
        path_decompose g p src v hp h2
      have hceq : d = cq + wt := by
        rw [hc] at hcp
        exact Option.some.inj hcp
      have hwt0 : 0 < wt := hpos u v wt hwt
      cases hu : alookup dist u with
      | none =>
        exfalso
        obtain ⟨z, sz, hz1, hz2, hz3⟩ :=
          cut_lemma g hpos src dist seen hinv.seenNone
            (fun w sw h c hc => (hinv.seenMin w sw h).2 c hc)
            (fun u du h p c hp hc => ((hinv.distOk u du h).1).2 p c hp hc)
            q.length q u cq le_rfl hq hcq hu
        obtain ⟨cz, hzin⟩ := hinv.fringeComplete z sz hz2 hz1
        have hd2 := hmin (sz, cz, z) hzin
        simp only [HeapLePr] at hd2
        rcases hd2 with hd2 | hd2 <;> omega
      | some du =>
        have hle1 : du ≤ cq := ((hinv.distOk u du hu).1).2 q cq hq hcq
        have hle2 : d ≤ du + wt :=
          (hinv.seenMin v d hsv).2 (du + wt) (Or.inr ⟨u, du, wt, hu, hwt, rfl⟩)
        have hequ : cq = du := by omega
        obtain ⟨-, -, ⟨pu, hpu, hchu⟩⟩ := hinv.distOk u du hu
        have hqmem : q ∈ pu := (hchu q).2 ⟨hq, by rw [hcq, hequ]⟩
        exact Or.inr ⟨u, du, wt, q, pu, hu, hwt, by omega, hpu, hqmem, heq⟩
    · obtain ⟨hne, hhead, hlast, -⟩ := hp
      cases p with
      | nil => exact absurd rfl hne
      | cons a t =>
        cases t with
        | cons b t2 => simp at h2
        | nil =>
          simp at hhead hlast
          exact Or.inl ⟨by rw [← hlast, hhead], by rw [hhead]⟩

/-! ### Extending the processed-neighbour list by one entry -/

theorem alookup_snoc_ne {α β : Type} [DecidableEq α]
    (l : List (α × β)) (k k2 : α) (x : β) (h : k2 ≠ k) :
    alookup (l ++ [(k, x)]) k2 = alookup l k2 := by
  rw [alookup_append]
  cases hl : alookup l k2 with
  | some y => rfl
  | none => simp [alookup, Ne.symm h]

theorem alookup_snoc_self {α β : Type} [DecidableEq α]
    (l : List (α × β)) (k : α) (x : β) (h : alookup l k = none) :
    alookup (l ++ [(k, x)]) k = some x := by
  rw [alookup_append, h]
  simp [alookup]

theorem candP_snoc_ne (g : WGraph) (src v : String) (d : Int)
    (dist pre : List (String × Int)) (w w2 : String) (wt c : Int)
    (h : w2 ≠ w) :
    CandP g src v d dist (pre ++ [(w, wt)]) w2 c ↔
      CandP g src v d dist pre w2 c := by
  simp only [CandP, alookup_snoc_ne pre w w2 wt h]

theorem candP_snoc_self (g : WGraph) (src v : String) (d : Int)
    (dist pre : List (String × Int)) (w : String) (wt c : Int)
    (hpre : alookup pre w = none) :
    CandP g src v d dist (pre ++ [(w, wt)]) w c ↔
      CandP g src v d dist pre w c ∨ c = d + wt := by
  simp only [CandP]
  rw [alookup_snoc_self pre w wt hpre]
  constructor
  · intro h
    rcases h with h | ⟨wt2, h1, h2⟩
    · exact Or.inl (Or.inl h)
    · obtain rfl : wt = wt2 := Option.some.inj h1
      exact Or.inr h2
  · intro h
    rcases h with (h | ⟨wt2, h1, h2⟩) | h
    · exact Or.inl h
    · rw [hpre] at h1; exact absurd h1 (by simp)
    · exact Or.inr ⟨wt, rfl, h⟩

/-- Processing an already-seen neighbour whose candidate through v is
worse: the state is unchanged and the entry joins the processed list. -/
theorem relaxStep_skip (g : WGraph) (src v : String) (d : Int)
    (dist pre seen : List (String × Int))
    (fringe : List (Int × Nat × String))
    (paths : List (String × List (List String))) (w : String)
    (wt sw : Int)
    (hinv : RelaxInv g src v d dist pre seen fringe paths)
    (hw_pre : alookup pre w = none)
    (hsw : alookup seen w = some sw) (hgt : sw < d + wt) :
    RelaxInv g src v d dist (pre ++ [(w, wt)]) seen fringe paths := by
  refine ⟨hinv.distOk, ?_, ?_, ?_, hinv.pathsNone, hinv.fringeCand,
    hinv.fringeComplete, hinv.fringeHigh⟩
  · intro w2 sw2 h2
    by_cases hww : w2 = w
    · subst hww
      obtain rfl : sw = sw2 := Option.some.inj (hsw.symm.trans h2)
      constructor
      · exact (candP_snoc_self g src v d dist pre w2 wt sw hw_pre).2
          (Or.inl (hinv.seenMin w2 sw hsw).1)
      · intro c hc
        rcases (candP_snoc_self g src v d dist pre w2 wt c hw_pre).1 hc
          with hc | rfl
        · exact (hinv.seenMin w2 sw hsw).2 c hc
        · omega
    · obtain ⟨hex, hmin⟩ := hinv.seenMin w2 sw2 h2
      constructor
      · exact (candP_snoc_ne g src v d dist pre w w2 wt sw2 hww).2 hex
      · intro c hc
        exact hmin c ((candP_snoc_ne g src v d dist pre w w2 wt c hww).1 hc)
  · intro w2 h2 c
    by_cases hww : w2 = w
    · subst hww
      rw [h2] at hsw
      exact absurd hsw (by simp)
    · rw [candP_snoc_ne g src v d dist pre w w2 wt c hww]
      exact hinv.seenNone w2 h2 c
  · intro w2 sw2 h2
    obtain ⟨pw, hpw, hchar⟩ := hinv.pathsSpec w2 sw2 h2
    refine ⟨pw, hpw, fun p => ?_⟩
    rw [hchar p]
    by_cases hww : w2 = w
    · subst hww
      obtain rfl : sw = sw2 := Option.some.inj (hsw.symm.trans h2)
      constructor
      · rintro (h | h | ⟨wt0, q, pv0, hT1, hT2⟩)
        · exact Or.inl h
        · exact Or.inr (Or.inl h)
        · rw [hw_pre] at hT1
          exact absurd hT1 (by simp)
      · rintro (h | h | ⟨wt0, q, pv0, hT1, hT2, hT3⟩)
        · exact Or.inl h
        · exact Or.inr (Or.inl h)
        · rw [alookup_snoc_self pre w2 wt hw_pre] at hT1
          obtain rfl : wt = wt0 := Option.some.inj hT1
          omega
    · simp only [alookup_snoc_ne pre w w2 wt hww]

/-- The path characterisation of a node is untouched by a paths/pre
update that fixes the entries of the settled nodes, of v, and the
processed entry of the node itself. -/
theorem pathsChar_congr (g : WGraph) (src v w2 : String) (d sw : Int)
    (dist : List (String × Int)) (pre1 pre2 : List (String × Int))
    (paths paths2 : List (String × List (List String)))
    (hS : ∀ u du, alookup dist u = some du →
      alookup paths2 u = alookup paths u)
    (hV : alookup paths2 v = alookup paths v)
    (hP : alookup pre2 w2 = alookup pre1 w2) (p : List String) :
    ((w2 = src ∧ p = [src]) ∨
      (∃ u du wt q pu, alookup dist u = some du ∧
        g.weight u w2 = some wt ∧ du + wt = sw ∧
        alookup paths2 u = some pu ∧ q ∈ pu ∧ p = q ++ [w2]) ∨
      (∃ wt q pv, alookup pre2 w2 = some wt ∧ d + wt = sw ∧
        alookup paths2 v = some pv ∧ q ∈ pv ∧ p = q ++ [w2])) ↔
    ((w2 = src ∧ p = [src]) ∨
      (∃ u du wt q pu, alookup dist u = some du ∧
        g.weight u w2 = some wt ∧ du + wt = sw ∧
        alookup paths u = some pu ∧ q ∈ pu ∧ p = q ++ [w2]) ∨
      (∃ wt q pv, alookup pre1 w2 = some wt ∧ d + wt = sw ∧
        alookup paths v = some pv ∧ q ∈ pv ∧ p = q ++ [w2])) := by
  constructor
  · rintro (h | ⟨u, du, wt, q, pu, h1, h2, h3, h4, h5, h6⟩ |
        ⟨wt, q, pv, h1, h2, h3, h4, h5⟩)
    · exact Or.inl h
    · rw [hS u du h1] at h4
      exact Or.inr (Or.inl ⟨u, du, wt, q, pu, h1, h2, h3, h4, h5, h6⟩)
    · rw [hP] at h1
      rw [hV] at h3
      exact Or.inr (Or.inr ⟨wt, q, pv, h1, h2, h3, h4, h5⟩)
  · rintro (h | ⟨u, du, wt, q, pu, h1, h2, h3, h4, h5, h6⟩ |
        ⟨wt, q, pv, h1, h2, h3, h4, h5⟩)
    · exact Or.inl h
    · rw [← hS u du h1] at h4
      exact Or.inr (Or.inl ⟨u, du, wt, q, pu, h1, h2, h3, h4, h5, h6⟩)
    · rw [← hP] at h1
      rw [← hV] at h3
      exact Or.inr (Or.inr ⟨wt, q, pv, h1, h2, h3, h4, h5⟩)

/-- Processing an already-seen neighbour whose candidate through v ties
the seen value: the ECMP extension of its path list. -/
theorem relaxStep_equal (g : WGraph) (src v : String) (d : Int)
    (dist pre seen : List (String × Int))
    (fringe : List (Int × Nat × String))
    (paths : List (String × List (List String))) (w : String)
    (wt sw : Int)
    (hinv : RelaxInv g src v d dist pre seen fringe paths)
    (hv : alookup dist v = none)
    (hw_pre : alookup pre w = none)
    (hsw : alookup seen w = some sw) (heqv : d + wt = sw)
    (hwns : alookup (aset dist v d) w = none) :
    RelaxInv g src v d dist (pre ++ [(w, wt)]) seen fringe
      (aset paths w (((alookup paths w).getD []) ++
        extend_paths_list ((alookup paths v).getD []) w)) := by
  have hvw : v ≠ w := by
    intro he
    rw [← he, alookup_aset_self dist v d] at hwns
    exact absurd hwns (by simp)
  have hset_ne : ∀ u du, alookup dist u = some du → u ≠ w := by
    intro u du h1 he
    subst he
    have huv : u ≠ v := by
      intro he2
      rw [he2, hv] at h1
      exact absurd h1 (by simp)
    rw [alookup_aset_ne dist v u d huv, h1] at hwns
    exact absurd hwns (by simp)
  obtain ⟨pw, hpw, hcharw⟩ := hinv.pathsSpec w sw hsw
  obtain ⟨-, -, pvl, hpv, hcharv⟩ :=
    hinv.distOk v d (alookup_aset_self dist v d)
  rw [hpw, hpv]
  simp only [Option.getD_some]
  have hSunch : ∀ u du, alookup dist u = some du →
      alookup (aset paths w (pw ++ extend_paths_list pvl w)) u =
        alookup paths u := by
    intro u du h1
    exact alookup_aset_ne paths w u _ (hset_ne u du h1)
  have hVunch : alookup (aset paths w (pw ++ extend_paths_list pvl w)) v =
      alookup paths v := alookup_aset_ne paths w v _ hvw
  refine ⟨?_, ?_, ?_, ?_, ?_, hinv.fringeCand, hinv.fringeComplete,
    hinv.fringeHigh⟩
  · intro u du h
    obtain ⟨hsd, hseen, pu, hpu, hchu⟩ := hinv.distOk u du h
    have huw : u ≠ w := by
      intro he
      rw [he, hwns] at h
      exact absurd h (by simp)
    refine ⟨hsd, hseen, pu, ?_, hchu⟩
    rw [alookup_aset_ne paths w u _ huw]
    exact hpu
  · intro w2 sw2 h2
    by_cases hww : w2 = w
    · subst hww
      obtain rfl : sw = sw2 := Option.some.inj (hsw.symm.trans h2)
      constructor
      · exact (candP_snoc_self g src v d dist pre w2 wt sw hw_pre).2
          (Or.inl (hinv.seenMin w2 sw hsw).1)
      · intro c hc
        rcases (candP_snoc_self g src v d dist pre w2 wt c hw_pre).1 hc
          with hc | rfl
        · exact (hinv.seenMin w2 sw hsw).2 c hc
        · omega
    · obtain ⟨hex, hmin⟩ := hinv.seenMin w2 sw2 h2
      constructor
      · exact (candP_snoc_ne g src v d dist pre w w2 wt sw2 hww).2 hex
      · intro c hc
        exact hmin c ((candP_snoc_ne g src v d dist pre w w2 wt c hww).1 hc)
  · intro w2 h2 c
    by_cases hww : w2 = w
    · subst hww
      rw [h2] at hsw
      exact absurd hsw (by simp)
    · rw [candP_snoc_ne g src v d dist pre w w2 wt c hww]
      exact hinv.seenNone w2 h2 c
  · intro w2 sw2 h2
    by_cases hww : w2 = w
    · subst hww
      obtain rfl : sw = sw2 := Option.some.inj (hsw.symm.trans h2)
      refine ⟨pw ++ extend_paths_list pvl w2, alookup_aset_self paths w2 _,
        fun p => ?_⟩
      constructor
      · intro hp
        rcases List.mem_append.1 hp with hp | hp
        · rcases (hcharw p).1 hp with h |
              ⟨u, du, wt2, q, pu, h1, h2, h3, h4, h5, h6⟩ |
              ⟨wt0, q, pv0, hT1, hT2⟩
          · exact Or.inl h
          · refine Or.inr (Or.inl ⟨u, du, wt2, q, pu, h1, h2, h3, ?_, h5, h6⟩)
            rw [hSunch u du h1]
            exact h4
          · rw [hw_pre] at hT1
            exact absurd hT1 (by simp)
        · rw [mem_extend_paths_list] at hp
          obtain ⟨q, hq, rfl⟩ := hp
          refine Or.inr (Or.inr ⟨wt, q, pvl,
            alookup_snoc_self pre w2 wt hw_pre, heqv, ?_, hq, rfl⟩)
          rw [hVunch]
          exact hpv
      · rintro (h | ⟨u, du, wt2, q, pu, h1, h2, h3, h4, h5, h6⟩ |
            ⟨wt0, q, pv0, hT1, hT2, hT3, hT4, hT5⟩)
        · exact List.mem_append.2 (Or.inl ((hcharw p).2 (Or.inl h)))
        · rw [hSunch u du h1] at h4
          exact List.mem_append.2 (Or.inl ((hcharw p).2
            (Or.inr (Or.inl ⟨u, du, wt2, q, pu, h1, h2, h3, h4, h5, h6⟩))))
        · rw [alookup_snoc_self pre w2 wt hw_pre] at hT1
          obtain rfl : wt = wt0 := Option.some.inj hT1
          rw [hVunch] at hT3
          obtain rfl : pvl = pv0 := Option.some.inj (hpv.symm.trans hT3)
          exact List.mem_append.2
            (Or.inr ((mem_extend_paths_list pvl w2 p).2 ⟨q, hT4, hT5⟩))
    · obtain ⟨pw2, hpw2, hchar2⟩ := hinv.pathsSpec w2 sw2 h2
      refine ⟨pw2, ?_, fun p => ?_⟩
      · rw [alookup_aset_ne paths w w2 _ hww]
        exact hpw2
      · rw [pathsChar_congr g src v w2 d sw2 dist pre (pre ++ [(w, wt)])
          paths _ hSunch hVunch (alookup_snoc_ne pre w w2 wt hww) p]
        exact hchar2 p
  · intro w2 h2
    have hww : w2 ≠ w := by
      intro he
      rw [he, hsw] at h2
      exact absurd h2 (by simp)
    rw [alookup_aset_ne paths w w2 _ hww]
    exact hinv.pathsNone w2 h2

/-- Processing a neighbour that is unseen, or seen with a strictly
worse value: seen is updated, a fringe entry is pushed and the path
list is replaced. -/
theorem relaxStep_push (g : WGraph) (src v : String) (d : Int)
    (dist pre seen : List (String × Int))
    (fringe : List (Int × Nat × String))
    (paths : List (String × List (List String))) (w : String)
    (wt : Int) (cnt : Nat)
    (hinv : RelaxInv g src v d dist pre seen fringe paths)
    (hv : alookup dist v = none)
    (hdmax : ∀ u du, alookup dist u = some du → du ≤ d)
    (hd0 : 0 ≤ d) (hwt0 : 0 < wt)
    (hw_pre : alookup pre w = none)
    (hw_nbr : g.weight v w = some wt)
    (hwns : alookup (aset dist v d) w = none)
    (hstrict : ∀ c2, CandP g src v d dist pre w c2 → d + wt < c2) :
    RelaxInv g src v d dist (pre ++ [(w, wt)]) (aset seen w (d + wt))
      (fringe ++ [(d + wt, cnt, w)])
      (aset paths w
        (extend_paths_list ((alookup paths v).getD []) w)) := by
  have hvw : v ≠ w := by
    intro he
    rw [← he, alookup_aset_self dist v d] at hwns
    exact absurd hwns (by simp)
  have hset_ne : ∀ u du, alookup dist u = some du → u ≠ w := by
    intro u du h1 he
    subst he
    have huv : u ≠ v := by
      intro he2
      rw [he2, hv] at h1
      exact absurd h1 (by simp)
    rw [alookup_aset_ne dist v u d huv, h1] at hwns
    exact absurd hwns (by simp)
  have hwsrc : w ≠ src := by
    intro he
    have := hstrict 0 (Or.inl (Or.inl ⟨he, rfl⟩))
    omega
  obtain ⟨-, -, pvl, hpv, hcharv⟩ :=
    hinv.distOk v d (alookup_aset_self dist v d)
  rw [hpv]
  simp only [Option.getD_some]
  have hSunch : ∀ u du, alookup dist u = some du →
      alookup (aset paths w (extend_paths_list pvl w)) u =
        alookup paths u := by
    intro u du h1
    exact alookup_aset_ne paths w u _ (hset_ne u du h1)
  have hVunch : alookup (aset paths w (extend_paths_list pvl w)) v =
      alookup paths v := alookup_aset_ne paths w v _ hvw
  refine ⟨?_, ?_, ?_, ?_, ?_, ?_, ?_, ?_⟩
  · intro u du h
    obtain ⟨hsd, hseen, pu, hpu, hchu⟩ := hinv.distOk u du h
    have huw : u ≠ w := by
      intro he
      rw [he, hwns] at h
      exact absurd h (by simp)
    refine ⟨hsd, ?_, pu, ?_, hchu⟩
    · rw [alookup_aset_ne seen w u _ huw]
      exact hseen
    · rw [alookup_aset_ne paths w u _ huw]
      exact hpu
  · intro w2 sw2 h2
    by_cases hww : w2 = w
    · subst hww
      rw [alookup_aset_self seen w2 _] at h2
      obtain rfl : d + wt = sw2 := Option.some.inj h2
      constructor
      · exact (candP_snoc_self g src v d dist pre w2 wt _ hw_pre).2
          (Or.inr rfl)
      · intro c hc
        rcases (candP_snoc_self g src v d dist pre w2 wt c hw_pre).1 hc
          with hc | rfl
        · exact le_of_lt (hstrict c hc)
        · exact le_refl _
    · rw [alookup_aset_ne seen w w2 _ hww] at h2
      obtain ⟨hex, hmin⟩ := hinv.seenMin w2 sw2 h2
      constructor
      · exact (candP_snoc_ne g src v d dist pre w w2 wt sw2 hww).2 hex
      · intro c hc
        exact hmin c ((candP_snoc_ne g src v d dist pre w w2 wt c hww).1 hc)
  · intro w2 h2 c
    have hww : w2 ≠ w := by
      intro he
      rw [he, alookup_aset_self seen w _] at h2
      exact absurd h2 (by simp)
    rw [alookup_aset_ne seen w w2 _ hww] at h2
    rw [candP_snoc_ne g src v d dist pre w w2 wt c hww]
    exact hinv.seenNone w2 h2 c
  · intro w2 sw2 h2
    by_cases hww : w2 = w
    · subst hww
      rw [alookup_aset_self seen w2 _] at h2
      obtain rfl : d + wt = sw2 := Option.some.inj h2
      refine ⟨extend_paths_list pvl w2, alookup_aset_self paths w2 _,
        fun p => ?_⟩
      constructor
      · intro hp
        rw [mem_extend_paths_list] at hp
        obtain ⟨q, hq, rfl⟩ := hp
        refine Or.inr (Or.inr ⟨wt, q, pvl,
          alookup_snoc_self pre w2 wt hw_pre, rfl, ?_, hq, rfl⟩)
        rw [hVunch]
        exact hpv
      · rintro (h | ⟨u, du, wt2, q, pu, h1, h2, h3, h4, h5, h6⟩ |
            ⟨wt0, q, pv0, hT1, hT2, hT3, hT4, hT5⟩)
        · exact absurd h.1 hwsrc
        · exfalso
          have := hstrict (du + wt2) (Or.inl (Or.inr ⟨u, du, wt2, h1, h2, rfl⟩))
          omega
        · rw [alookup_snoc_self pre w2 wt hw_pre] at hT1
          obtain rfl : wt = wt0 := Option.some.inj hT1
          rw [hVunch] at hT3
          obtain rfl : pvl = pv0 := Option.some.inj (hpv.symm.trans hT3)
          exact (mem_extend_paths_list pvl w2 p).2 ⟨q, hT4, hT5⟩
    · rw [alookup_aset_ne seen w w2 _ hww] at h2
      obtain ⟨pw2, hpw2, hchar2⟩ := hinv.pathsSpec w2 sw2 h2
      refine ⟨pw2, ?_, fun p => ?_⟩
      · rw [alookup_aset_ne paths w w2 _ hww]
        exact hpw2
      · rw [pathsChar_congr g src v w2 d sw2 dist pre (pre ++ [(w, wt)])
          paths _ hSunch hVunch (alookup_snoc_ne pre w w2 wt hww) p]
        exact hchar2 p
  · intro w2 h2
    have hww : w2 ≠ w := by
      intro he
      rw [he, alookup_aset_self seen w _] at h2
      exact absurd h2 (by simp)
    rw [alookup_aset_ne seen w w2 _ hww] at h2
    rw [alookup_aset_ne paths w w2 _ hww]
    exact hinv.pathsNone w2 h2
  · intro e he
    rcases List.mem_append.1 he with he | he
    · exact hinv.fringeCand e he
    · rw [List.mem_singleton] at he
      subst he
      exact Or.inr ⟨v, d, wt, alookup_aset_self dist v d, hw_nbr, rfl⟩
  · intro w2 sw2 h2 hns2
    by_cases hww : w2 = w
    · subst hww
      rw [alookup_aset_self seen w2 _] at h2
      obtain rfl : d + wt = sw2 := Option.some.inj h2
      exact ⟨cnt, List.mem_append.2 (Or.inr (List.mem_singleton.2 rfl))⟩
    · rw [alookup_aset_ne seen w w2 _ hww] at h2
      obtain ⟨c2, hc2⟩ := hinv.fringeComplete w2 sw2 h2 hns2
      exact ⟨c2, List.mem_append.2 (Or.inl hc2)⟩
  · intro e he u du h
    rcases List.mem_append.1 he with he | he
    · exact hinv.fringeHigh e he u du h
    · rw [List.mem_singleton] at he
      subst he
      simp only
      by_cases huv : u = v
      · subst huv
        rw [alookup_aset_self dist u d] at h
        obtain rfl : d = du := Option.some.inj h
        omega
      · rw [alookup_aset_ne dist v u d huv] at h
        have := hdmax u du h
        omega

/-- The relaxation loop of a freshly settled node succeeds under the
loop invariant (positive weights rule out the negative-metric
ValueError) and preserves it, having processed every neighbour. -/
theorem relaxAll_ok (g : WGraph) (hwf : g.WF)
    (hpos : ∀ u v w, g.weight u v = some w → 0 < w)
    (src v : String) (d : Int) (hd0 : 0 ≤ d)
    (dist : List (String × Int)) (hv : alookup dist v = none)
    (hdmax : ∀ u du, alookup dist u = some du → du ≤ d) :
    ∀ (l pre seen : List (String × Int))
      (fringe : List (Int × Nat × String))
      (paths : List (String × List (List String))) (c : Nat),
      g.nbrs v = pre ++ l →
      RelaxInv g src v d dist pre seen fringe paths →
      ∃ seen2 fringe2 paths2 c2,
        relaxAll g v d (aset dist v d) l seen fringe paths c =
          .ok (seen2, fringe2, paths2, c2) ∧
        RelaxInv g src v d dist (pre ++ l) seen2 fringe2 paths2 ∧
        fringe2.length ≤ fringe.length + l.length := by
  have hnodup : ((g.nbrs v).map Prod.fst).Nodup := by
    cases h : alookup g.adj v with
    | none => simp [WGraph.nbrs, h]
    | some nb =>
      have hmem := alookup_mem g.adj v nb h
      have hnd := (hwf.2 _ hmem).1
      simpa [WGraph.nbrs, h] using hnd
  intro l
  induction l with
  | nil =>
    intro pre seen fringe paths c hpre hinv
    exact ⟨seen, fringe, paths, c, rfl, by simpa using hinv, by simp⟩
  | cons hd tl ih =>
    obtain ⟨w, wt⟩ := hd
    intro pre seen fringe paths c hpre hinv
    have hwnotpre : w ∉ pre.map Prod.fst := by
      have h := hnodup
      rw [hpre, List.map_append, List.nodup_append] at h
      exact fun hw => h.2.2 hw (by simp)
    have hw_pre : alookup pre w = none := (alookup_none_iff pre w).2 hwnotpre
    have hw_nbr : g.weight v w = some wt := by
      show alookup (g.nbrs v) w = some wt
      rw [hpre, alookup_append, hw_pre]
      simp [alookup]
    have hwt0 : 0 < wt := hpos v w wt hw_nbr
    have heval : ¬(d + wt < (alookup (aset dist v d) w).getD 0) := by
      by_cases hwv : w = v
      · rw [hwv, alookup_aset_self dist v d]
        simp only [Option.getD_some]
        omega
      · rw [alookup_aset_ne dist v w d hwv]
        cases hq : alookup dist w with
        | none => simp only [Option.getD_none]; omega
        | some dw =>
          have := hdmax w dw hq
          simp only [Option.getD_some]
          omega
    have hpre2 : g.nbrs v = (pre ++ [(w, wt)]) ++ tl := by
      rw [hpre]
      simp
    have hflat : (pre ++ [(w, wt)]) ++ tl = pre ++ (w, wt) :: tl := by
      simp
    cases hsw : alookup seen w with
    | none =>
      have hwns : alookup (aset dist v d) w = none := by
        cases hq : alookup (aset dist v d) w with
        | none => rfl
        | some dw =>
          have hs := (hinv.distOk w dw hq).2.1
          rw [hsw] at hs
          exact absurd hs (by simp)
      have hstrict : ∀ c2, CandP g src v d dist pre w c2 → d + wt < c2 :=
        fun c2 hc => (hinv.seenNone w hsw c2 hc).elim
      have hinv2 := relaxStep_push g src v d dist pre seen fringe paths
        w wt c hinv hv hdmax hd0 hwt0 hw_pre hw_nbr hwns hstrict
      obtain ⟨s2, f2, p2, c2, hrun, hinvf, hlen⟩ :=
        ih (pre ++ [(w, wt)]) _ _ _ (c + 1) hpre2 hinv2
      refine ⟨s2, f2, p2, c2, ?_, ?_, ?_⟩
      · rw [show relaxAll g v d (aset dist v d) ((w, wt) :: tl) seen fringe
            paths c = relaxAll g v d (aset dist v d) tl
              (aset seen w (d + wt)) (fringe ++ [(d + wt, c, w)])
              (aset paths w (extend_paths_list
                ((alookup paths v).getD []) w)) (c + 1) from by
          simp only [relaxAll, if_neg heval, hsw]]
        exact hrun
      · rwa [hflat] at hinvf
      · simp only [List.length_append, List.length_cons,
          List.length_nil] at hlen
        simp only [List.length_cons]
        omega
    | some sw =>
      by_cases hlt : d + wt < sw
      · have hwns : alookup (aset dist v d) w = none := by
          cases hq : alookup (aset dist v d) w with
          | none => rfl
          | some dw =>
            exfalso
            have hs := (hinv.distOk w dw hq).2.1
            rw [hsw] at hs
            obtain rfl : dw = sw := (Option.some.inj hs).symm
            by_cases hwv : w = v
            · rw [hwv, alookup_aset_self dist v d] at hq
              obtain rfl : d = dw := Option.some.inj hq
              omega
            · rw [alookup_aset_ne dist v w d hwv] at hq
              have := hdmax w dw hq
              omega
        have hstrict : ∀ c2, CandP g src v d dist pre w c2 → d + wt < c2 :=
          fun c2 hc => lt_of_lt_of_le hlt ((hinv.seenMin w sw hsw).2 c2 hc)
        have hinv2 := relaxStep_push g src v d dist pre seen fringe paths
          w wt c hinv hv hdmax hd0 hwt0 hw_pre hw_nbr hwns hstrict
        obtain ⟨s2, f2, p2, c2, hrun, hinvf, hlen⟩ :=
          ih (pre ++ [(w, wt)]) _ _ _ (c + 1) hpre2 hinv2
        refine ⟨s2, f2, p2, c2, ?_, ?_, ?_⟩
        · rw [show relaxAll g v d (aset dist v d) ((w, wt) :: tl) seen
              fringe paths c = relaxAll g v d (aset dist v d) tl
                (aset seen w (d + wt)) (fringe ++ [(d + wt, c, w)])
                (aset paths w (extend_paths_list
                  ((alookup paths v).getD []) w)) (c + 1) from by
            simp only [relaxAll, if_neg heval, hsw]
            rw [if_pos hlt]]
          exact hrun
        · rwa [hflat] at hinvf
        · simp only [List.length_append, List.length_cons,
            List.length_nil] at hlen
          simp only [List.length_cons]
          omega
      · by_cases heqv : d + wt = sw
        · have hwns : alookup (aset dist v d) w = none := by
            cases hq : alookup (aset dist v d) w with
            | none => rfl
            | some dw =>
              exfalso
              have hs := (hinv.distOk w dw hq).2.1
              rw [hsw] at hs
              obtain rfl : dw = sw := (Option.some.inj hs).symm
              by_cases hwv : w = v
              · rw [hwv, alookup_aset_self dist v d] at hq
                obtain rfl : d = dw := Option.some.inj hq
                omega
              · rw [alookup_aset_ne dist v w d hwv] at hq
                have := hdmax w dw hq
                omega
          have hinv2 := relaxStep_equal g src v d dist pre seen fringe
            paths w wt sw hinv hv hw_pre hsw heqv hwns
          obtain ⟨s2, f2, p2, c2, hrun, hinvf, hlen⟩ :=
            ih (pre ++ [(w, wt)]) _ _ _ c hpre2 hinv2
          refine ⟨s2, f2, p2, c2, ?_, ?_, ?_⟩
          · rw [show relaxAll g v d (aset dist v d) ((w, wt) :: tl) seen
                fringe paths c = relaxAll g v d (aset dist v d) tl seen
                  fringe (aset paths w (((alookup paths w).getD []) ++
                    extend_paths_list ((alookup paths v).getD []) w))
                  c from by
              simp only [relaxAll, if_neg heval, hsw]
              rw [if_neg hlt, if_pos heqv]]
            exact hrun
          · rwa [hflat] at hinvf
          · simp only [List.length_cons]
            omega
        · have hgt : sw < d + wt := by omega
          have hinv2 := relaxStep_skip g src v d dist pre seen fringe
            paths w wt sw hinv hw_pre hsw hgt
          obtain ⟨s2, f2, p2, c2, hrun, hinvf, hlen⟩ :=
            ih (pre ++ [(w, wt)]) _ _ _ c hpre2 hinv2
          refine ⟨s2, f2, p2, c2, ?_, ?_, ?_⟩
          · rw [show relaxAll g v d (aset dist v d) ((w, wt) :: tl) seen
                fringe paths c =
                relaxAll g v d (aset dist v d) tl seen fringe paths c from by
              simp only [relaxAll, if_neg heval, hsw]
              rw [if_neg hlt, if_neg heqv]]
            exact hrun
          · rwa [hflat] at hinvf
          · simp only [List.length_cons]
            omega

/-- Popping the minimal fringe entry of an unsettled node yields a
valid starting state for its relaxation loop. -/
theorem relaxInv_init (g : WGraph) (src : String)
    (fringe : List (Int × Nat × String)) (dist seen : List (String × Int))
    (paths : List (String × List (List String)))
    (hinv : SptInv g src fringe dist seen paths)
    (d : Int) (cnt : Nat) (v : String)
    (hm : (d, cnt, v) ∈ fringe)
    (hmin : ∀ y ∈ fringe, HeapLePr (d, cnt, v) y)
    (hv : alookup dist v = none)
    (hsv : alookup seen v = some d)
    (hsd : ShortestDist g src v d)
    (hpvchar : ∃ pv, alookup paths v = some pv ∧
      ∀ p, p ∈ pv ↔ (IsPathFromTo g src v p ∧ pathCost g p = some d)) :
    RelaxInv g src v d dist [] seen (fringe.erase (d, cnt, v)) paths := by
  refine ⟨?_, ?_, ?_, ?_, hinv.pathsNone, ?_, ?_, ?_⟩
  · intro u du h
    by_cases huv : u = v
    · subst huv
      rw [alookup_aset_self dist u d] at h
      obtain rfl : d = du := Option.some.inj h
      exact ⟨hsd, hsv, hpvchar⟩
    · rw [alookup_aset_ne dist v u d huv] at h
      exact hinv.distOk u du h
  · intro w sw h
    obtain ⟨hex, hmin2⟩ := hinv.seenMin w sw h
    constructor
    · exact (candP_nil g src v d dist w sw).2 hex
    · intro c hc
      exact hmin2 c ((candP_nil g src v d dist w c).1 hc)
  · intro w h c
    rw [candP_nil]
    exact hinv.seenNone w h c
  · intro w sw h
    obtain ⟨pw, hpw, hchar⟩ := hinv.pathsSpec w sw h
    refine ⟨pw, hpw, fun p => ?_⟩
    rw [hchar p]
    constructor
    · rintro (h2 | h2)
      · exact Or.inl h2
      · exact Or.inr (Or.inl h2)
    · rintro (h2 | h2 | ⟨wt, q, pv, hT1, _⟩)
      · exact Or.inl h2
      · exact Or.inr h2
      · exact absurd hT1 (by simp [alookup])
  · intro e he
    exact cand_mono g src dist v d hv e.2.2 e.1
      (hinv.fringeCand e (List.mem_of_mem_erase he))
  · intro w sw h hns
    have hwv : w ≠ v := by
      intro he
      rw [he, alookup_aset_self dist v d] at hns
      exact absurd hns (by simp)
    rw [alookup_aset_ne dist v w d hwv] at hns
    obtain ⟨c2, hc2⟩ := hinv.fringeComplete w sw h hns
    refine ⟨c2, (List.mem_erase_of_ne ?_).2 hc2⟩
    intro he
    exact hwv (congrArg (fun t => t.2.2) he)
  · intro e he u du h
    by_cases huv : u = v
    · subst huv
      rw [alookup_aset_self dist u d] at h
      obtain rfl : d = du := Option.some.inj h
      have h2 := hmin e (List.mem_of_mem_erase he)
      simp only [HeapLePr] at h2
      rcases h2 with h2 | h2
      · omega
      · omega
    · rw [alookup_aset_ne dist v u d huv] at h
      exact hinv.fringeHigh e (List.mem_of_mem_erase he) u du h

/-- Having processed every neighbour entry of v, the relaxation
invariant collapses back to the loop invariant over the extended
settled map. -/
theorem relaxFinal (g : WGraph) (src v : String) (d : Int)
    (dist seen : List (String × Int))
    (fringe : List (Int × Nat × String))
    (paths : List (String × List (List String)))
    (hv : alookup dist v = none)
    (hinv : RelaxInv g src v d dist (g.nbrs v) seen fringe paths) :
    SptInv g src fringe (aset dist v d) seen paths := by
  refine ⟨hinv.distOk, ?_, ?_, ?_, hinv.pathsNone, hinv.fringeCand,
    hinv.fringeComplete, hinv.fringeHigh⟩
  · intro w sw h
    obtain ⟨hex, hmin⟩ := hinv.seenMin w sw h
    constructor
    · exact (candP_full g src v d dist hv w sw).1 hex
    · intro c hc
      exact hmin c ((candP_full g src v d dist hv w c).2 hc)
  · intro w h c hc
    exact hinv.seenNone w h c ((candP_full g src v d dist hv w c).2 hc)
  · intro w sw h
    obtain ⟨pw, hpw, hchar⟩ := hinv.pathsSpec w sw h
    refine ⟨pw, hpw, fun p => ?_⟩
    rw [hchar p]
    constructor
    · rintro (h2 | ⟨u, du, wt, q, pu, h1, h2, h3, h4, h5, h6⟩ |
          ⟨wt, q, pv, hT1, hT2, hT3, hT4, hT5⟩)
      · exact Or.inl h2
      · refine Or.inr ⟨u, du, wt, q, pu, ?_, h2, h3, h4, h5, h6⟩
        have huv : u ≠ v := by
          intro he
          rw [he, hv] at h1
          exact absurd h1 (by simp)
        rw [alookup_aset_ne dist v u d huv]
        exact h1
      · exact Or.inr ⟨v, d, wt, q, pv, alookup_aset_self dist v d,
          hT1, hT2, hT3, hT4, hT5⟩
    · rintro (h2 | ⟨u, du, wt, q, pu, h1, h2, h3, h4, h5, h6⟩)
      · exact Or.inl h2
      · by_cases huv : u = v
        · subst huv
          rw [alookup_aset_self dist u d] at h1
          obtain rfl : d = du := Option.some.inj h1
          exact Or.inr (Or.inr ⟨wt, q, pu, h2, h3, h4, h5, h6⟩)
        · rw [alookup_aset_ne dist v u d huv] at h1
          exact Or.inr (Or.inl ⟨u, du, wt, q, pu, h1, h2, h3, h4, h5, h6⟩)

/-- The invariant holds for the initial state of _spt_from_src. -/
theorem sptInv_init (g : WGraph) (src : String) :
    SptInv g src [(0, 0, src)] [] [(src, 0)] [(src, [[src]])] := by
  refine ⟨?_, ?_, ?_, ?_, ?_, ?_, ?_, ?_⟩
  · intro v d h
    simp [alookup] at h
  · intro w sw h
    by_cases hw : src = w
    · subst hw
      simp [alookup] at h
      subst h
      constructor
      · exact Or.inl ⟨rfl, rfl⟩
      · intro c hc
        rcases hc with ⟨-, rfl⟩ | ⟨u, du, wt, h1, -⟩
        · exact le_refl _
        · simp [alookup] at h1
    · simp [alookup, hw] at h
  · intro w h c hc
    simp only [alookup] at h
    rcases hc with ⟨hws, -⟩ | ⟨u, du, wt, h1, -⟩
    · rw [if_pos hws.symm] at h
      exact absurd h (by simp)
    · simp [alookup] at h1
  · intro w sw h
    by_cases hw : src = w
    · subst hw
      simp [alookup] at h
      subst h
      refine ⟨[[src]], by simp [alookup], fun p => ?_⟩
      constructor
      · intro hp
        simp at hp
        exact Or.inl ⟨rfl, hp⟩
      · rintro (⟨-, rfl⟩ | ⟨u, du, wt, q, pu, h1, -⟩)
        · simp
        · simp [alookup] at h1
    · simp [alookup, hw] at h
  · intro w h
    simp only [alookup] at h ⊢
    by_cases hw : src = w
    · rw [if_pos hw] at h
      exact absurd h (by simp)
    · rw [if_neg hw]
  · intro e he
    simp at he
    subst he
    exact Or.inl ⟨rfl, rfl⟩
  · intro w sw h hns
    by_cases hw : src = w
    · subst hw
      simp [alookup] at h
      subst h
      exact ⟨0, by simp⟩
    · simp [alookup, hw] at h
  · intro e he u du h
    simp [alookup] at h

/-! ### The potential function -/

theorem filter_sum_aset (dist : List (String × Int)) (v : String)
    (d : Int) (f : String → Nat) :
    ∀ (ns : List String), ns.Nodup → v ∈ ns →
      (alookup dist v).isNone = true →
      ((ns.filter
          (fun u => (alookup (aset dist v d) u).isNone)).map f).sum + f v =
      ((ns.filter (fun u => (alookup dist u).isNone)).map f).sum := by
  intro ns
  induction ns with
  | nil => intro _ h; simp at h
  | cons a t ih =>
    intro hnd hv hnone
    simp only [List.nodup_cons] at hnd
    rcases List.mem_cons.1 hv with rfl | hv2
    · have h1 : (alookup (aset dist v d) v).isNone = false := by
        rw [alookup_aset_self]
        rfl
      have hcong : t.filter (fun u => (alookup (aset dist v d) u).isNone) =
          t.filter (fun u => (alookup dist u).isNone) := by
        apply List.filter_congr
        intro u hu
        have hua : u ≠ v := fun he => hnd.1 (he ▸ hu)
        rw [alookup_aset_ne dist v u d hua]
      rw [List.filter_cons, List.filter_cons, h1, hnone, hcong]
      simp [Nat.add_comm]
    · have hva : a ≠ v := fun he => hnd.1 (he ▸ hv2)
      have hpe : alookup (aset dist v d) a = alookup dist a :=
        alookup_aset_ne dist v a d hva
      rw [List.filter_cons, List.filter_cons, hpe]
      cases hb : (alookup dist a).isNone with
      | true =>
        rw [if_pos rfl, if_pos rfl]
        simp only [List.map_cons, List.sum_cons]
        have := ih hnd.2 hv2 hnone
        omega
      | false =>
        rw [if_neg (by simp), if_neg (by simp)]
        exact ih hnd.2 hv2 hnone

theorem nodes_deg_sum (g : WGraph) (hnd : (g.adj.map Prod.fst).Nodup) :
    (g.nodes.map (fun u => (g.nbrs u).length)).sum =
      (g.adj.map (fun p => p.2.length)).sum := by
  show ((g.adj.map Prod.fst).map (fun u => (g.nbrs u).length)).sum = _
  rw [List.map_map]
  have hmc : g.adj.map ((fun u => (g.nbrs u).length) ∘ Prod.fst) =
      g.adj.map (fun p => p.2.length) := by
    apply List.map_congr_left
    intro p hp
    simp only [Function.comp]
    have hl := mem_alookup_of_nodup g.adj p.1 p.2 hnd
      (by rw [Prod.mk.eta]; exact hp)
    simp [WGraph.nbrs, hl]
  rw [hmc]

theorem sptPhi_init (g : WGraph) (hwf : g.WF) (src : String) :
    sptPhi g [(0, 0, src)] [] < sptFuel g := by
  simp only [sptPhi, sptFuel]
  have hfil : g.nodes.filter
      (fun u => (alookup ([] : List (String × Int)) u).isNone) =
      g.nodes := by
    apply List.filter_eq_self.2
    intro u _
    simp [alookup]
  rw [hfil, nodes_deg_sum g hwf.1]
  simp only [List.length_cons, List.length_nil]
  omega

theorem phi_continue (g : WGraph) (dist : List (String × Int))
    (fringe : List (Int × Nat × String)) (m : Int × Nat × String)
    (hmem : m ∈ fringe) :
    sptPhi g (fringe.erase m) dist < sptPhi g fringe dist := by
  simp only [sptPhi]
  have h1 := List.length_erase_of_mem hmem
  have h2 : 1 ≤ fringe.length := List.length_pos.2 (List.ne_nil_of_mem hmem)
  omega

theorem phi_settle (g : WGraph) (hwf : g.WF) (v : String) (d : Int)
    (dist : List (String × Int)) (hv : alookup dist v = none)
    (fringe f2 : List (Int × Nat × String)) (m : Int × Nat × String)
    (hmem : m ∈ fringe)
    (hlen : f2.length ≤ (fringe.erase m).length + (g.nbrs v).length) :
    sptPhi g f2 (aset dist v d) < sptPhi g fringe dist := by
  simp only [sptPhi]
  have hlen1 := List.length_erase_of_mem hmem
  have hlen2 : 1 ≤ fringe.length :=
    List.length_pos.2 (List.ne_nil_of_mem hmem)
  by_cases hvn : v ∈ g.nodes
  · have hsum : ((g.nodes.filter
        (fun u => (alookup (aset dist v d) u).isNone)).map
          (fun u => (g.nbrs u).length)).sum + (g.nbrs v).length =
        ((g.nodes.filter (fun u => (alookup dist u).isNone)).map
          (fun u => (g.nbrs u).length)).sum :=
      filter_sum_aset dist v d (fun u => (g.nbrs u).length)
        g.nodes hwf.1 hvn (by rw [hv]; rfl)
    omega
  · have hnbr : g.nbrs v = [] := by
      have : alookup g.adj v = none :=
        (alookup_none_iff g.adj v).2 (fun h => hvn h)
      simp [WGraph.nbrs, this]
    have hcong : g.nodes.filter
        (fun u => (alookup (aset dist v d) u).isNone) =
        g.nodes.filter (fun u => (alookup dist u).isNone) := by
      apply List.filter_congr
      intro u hu
      have huv : u ≠ v := fun he => hvn (he ▸ hu)
      rw [alookup_aset_ne dist v u d huv]
    have hlen3 : f2.length ≤ (fringe.erase m).length := by
      rw [hnbr] at hlen
      simpa using hlen
    rw [hcong]
    omega

/-- The Dijkstra main loop: under the invariant and with fuel above
the potential, it terminates without error and yields a final state
with an empty fringe, still satisfying the invariant. -/
theorem sptLoop_ok (g : WGraph) (hwf : g.WF)
    (hpos : ∀ u v w, g.weight u v = some w → 0 < w) (src : String) :
    ∀ (fuel : Nat) (fringe : List (Int × Nat × String))
      (dist seen : List (String × Int))
      (paths : List (String × List (List String))) (c : Nat),
      SptInv g src fringe dist seen paths →
      sptPhi g fringe dist < fuel →
      ∃ paths2 dist2 seen2,
        sptLoop g fuel fringe dist seen paths c =
          some (.ok (paths2, dist2)) ∧
        SptInv g src [] dist2 seen2 paths2 := by
  intro fuel
  induction fuel with
  | zero =>
    intro fringe dist seen paths c _ hphi
    omega
  | succ fuel ih =>
    intro fringe dist seen paths c hinv hphi
    cases fringe with
    | nil =>
      exact ⟨paths, dist, seen, by simp [sptLoop, popMin], hinv⟩
    | cons x xs =>
      obtain ⟨m, rest, hpop, hmem, hrest, hmin⟩ := popMin_spec x xs
      subst hrest
      obtain ⟨d, cnt, v⟩ := m
      cases hdist : alookup dist v with
      | some dv =>
        have hinv2 : SptInv g src ((x :: xs).erase (d, cnt, v)) dist seen
            paths := by
          refine ⟨hinv.distOk, hinv.seenMin, hinv.seenNone, hinv.pathsSpec,
            hinv.pathsNone, ?_, ?_, ?_⟩
          · intro e he
            exact hinv.fringeCand e (List.mem_of_mem_erase he)
          · intro w sw h hns
            obtain ⟨c2, hc2⟩ := hinv.fringeComplete w sw h hns
            refine ⟨c2, (List.mem_erase_of_ne ?_).2 hc2⟩
            intro he
            have hwv : w = v := congrArg (fun t => t.2.2) he
            rw [hwv, hdist] at hns
            exact absurd hns (by simp)
          · intro e he
            exact hinv.fringeHigh e (List.mem_of_mem_erase he)
        have hphi2 : sptPhi g ((x :: xs).erase (d, cnt, v)) dist < fuel := by
          have := phi_continue g dist (x :: xs) (d, cnt, v) hmem
          omega
        obtain ⟨p2, d2, s2, hr, hfin⟩ := ih _ dist seen paths c hinv2 hphi2
        refine ⟨p2, d2, s2, ?_, hfin⟩
        rw [show sptLoop g (fuel + 1) (x :: xs) dist seen paths c =
            sptLoop g fuel ((x :: xs).erase (d, cnt, v)) dist seen paths c
            from by
          simp only [sptLoop, hpop, hdist, Option.isSome_some, if_true]]
        exact hr
      | none =>
        obtain ⟨hsv, hsd, hd0, hdmax, hpv⟩ :=
          settle_ok g hpos src (x :: xs) dist seen paths hinv d cnt v
            hmem hmin hdist
        have hrinv : RelaxInv g src v d dist [] seen
            ((x :: xs).erase (d, cnt, v)) paths :=
          relaxInv_init g src (x :: xs) dist seen paths hinv d cnt v
            hmem hmin hdist hsv hsd hpv
        obtain ⟨s2, f2, p2, c2, hrun, hrinv2, hlen⟩ :=
          relaxAll_ok g hwf hpos src v d hd0 dist hdist hdmax
            (g.nbrs v) [] seen ((x :: xs).erase (d, cnt, v)) paths c
            (by simp) hrinv
        have hinv2 : SptInv g src f2 (aset dist v d) s2 p2 :=
          relaxFinal g src v d dist s2 f2 p2 hdist (by simpa using hrinv2)
        have hphi2 : sptPhi g f2 (aset dist v d) < fuel := by
          have := phi_settle g hwf v d dist hdist (x :: xs) f2 (d, cnt, v)
            hmem hlen
          omega
        obtain ⟨p3, d3, s3, hr, hfin⟩ := ih f2 (aset dist v d) s2 p2 c2
          hinv2 hphi2
        refine ⟨p3, d3, s3, ?_, hfin⟩
        rw [show sptLoop g (fuel + 1) (x :: xs) dist seen paths c =
            sptLoop g fuel f2 (aset dist v d) s2 p2 c2 from by
          simp only [sptLoop, hpop, hdist, Option.isSome_none,
            Bool.false_eq_true, if_false, hrun]]
        exact hr

/-- A single Dijkstra run succeeds on a well-formed positively weighted
graph and its final state satisfies the invariant with empty fringe. -/
theorem spt_from_src_ok (g : WGraph) (hwf : g.WF)
    (hpos : ∀ u v w, g.weight u v = some w → 0 < w) (src : String) :
    ∃ paths2 dist2 seen2,
      spt_from_src g src = some (.ok (paths2, dist2)) ∧
      SptInv g src [] dist2 seen2 paths2 := by
  obtain ⟨p2, d2, s2, hrun, hinv⟩ :=
    sptLoop_ok g hwf hpos src (sptFuel g) [(0, 0, src)] [] [(src, 0)]
      [(src, [[src]])] 1 (sptInv_init g src) (sptPhi_init g hwf src)
  exact ⟨p2, d2, s2, hrun, hinv⟩

/-- At termination every reachable node is settled. -/
theorem reachable_settled (g : WGraph)
    (hpos : ∀ u v w, g.weight u v = some w → 0 < w) (src : String)
    (dist2 seen2 : List (String × Int))
    (paths2 : List (String × List (List String)))
    (hinv : SptInv g src [] dist2 seen2 paths2) (v : String)
    (hreach : Reachable g src v) : ∃ dv, alookup dist2 v = some dv := by
  cases hd : alookup dist2 v with
  | some dv => exact ⟨dv, rfl⟩
  | none =>
    exfalso
    obtain ⟨p, hp⟩ := hreach
    obtain ⟨c, hc⟩ := Option.isSome_iff_exists.1 hp.2.2.2
    obtain ⟨z, sz, hz1, hz2, -⟩ :=
      cut_lemma g hpos src dist2 seen2 hinv.seenNone
        (fun w sw h c hc => (hinv.seenMin w sw h).2 c hc)
        (fun u du h p c hp hc => ((hinv.distOk u du h).1).2 p c hp hc)
        p.length p v c le_rfl hp hc hd
    obtain ⟨cz, hcz⟩ := hinv.fringeComplete z sz hz2 hz1
    simp at hcz

/-- The per-source loop of get_spt, when every source succeeds. -/
theorem getSptLoop_ok (g : WGraph) :
    ∀ (ns : List String)
      (spt : List (String × List (String × List (List String))))
      (dist : List (String × List (String × Int))),
      (∀ n ∈ ns, spt_from_src g n = some (.ok (sptResult g n))) →
      getSptLoop g ns spt dist = some (.ok
        (spt ++ ns.map (fun n => (n, (sptResult g n).1)),
         dist ++ ns.map (fun n => (n, (sptResult g n).2)))) := by
  intro ns
  induction ns with
  | nil =>
    intro spt dist _
    simp [getSptLoop]
  | cons n rest ih =>
    intro spt dist hall
    have hn := hall n (List.mem_cons_self _ _)
    rw [show getSptLoop g (n :: rest) spt dist =
        getSptLoop g rest (spt ++ [(n, (sptResult g n).1)])
          (dist ++ [(n, (sptResult g n).2)]) from by
      simp only [getSptLoop, hn]]
    rw [ih (spt ++ [(n, (sptResult g n).1)])
      (dist ++ [(n, (sptResult g n).2)])
      (fun m hm => hall m (List.mem_cons_of_mem _ hm))]
    simp

/-- C2: on a well-formed graph with positive edge weights, for every
node u and every v reachable from u, get_spt succeeds and returns a
distance map whose entry dist[u][v] is the minimum total edge cost of
a u-to-v path, and a path map whose entry spt[u][v] contains exactly
the u-to-v paths achieving that minimum (all ECMP paths, nothing
else). -/
theorem C2_get_spt_shortest_paths (g : WGraph) (hwf : g.WF)
    (hpos : ∀ u v w, g.weight u v = some w → 0 < w)
    (u v : String) (hu : u ∈ g.nodes) (hreach : Reachable g u v) :
    ∃ spt dist sptu distu dv pv,
      get_spt g = some (.ok (spt, dist)) ∧
      alookup spt u = some sptu ∧ alookup dist u = some distu ∧
      alookup distu v = some dv ∧ ShortestDist g u v dv ∧
      alookup sptu v = some pv ∧
      ∀ p, p ∈ pv ↔ (IsPathFromTo g u v p ∧ pathCost g p = some dv) := by
  have hall : ∀ n ∈ g.nodes,
      spt_from_src g n = some (.ok (sptResult g n)) := by
    intro n _
    obtain ⟨p2, d2, s2, hrun, -⟩ := spt_from_src_ok g hwf hpos n
    rw [hrun]
    simp [sptResult, hrun]
  have hloop := getSptLoop_ok g g.nodes [] [] hall
  obtain ⟨p2, d2, s2, hsrc, hinv⟩ := spt_from_src_ok g hwf hpos u
  have hres : sptResult g u = (p2, d2) := by simp [sptResult, hsrc]
  obtain ⟨dv, hdv⟩ := reachable_settled g hpos u d2 s2 p2 hinv v hreach
  obtain ⟨hsd, -, pv, hpv, hchar⟩ := hinv.distOk v dv hdv
  refine ⟨_, _, (sptResult g u).1, (sptResult g u).2, dv, pv, hloop,
    ?_, ?_, ?_, hsd, ?_, hchar⟩
  · simp only [List.nil_append]
    exact alookup_map_self _ g.nodes u hu
  · simp only [List.nil_append]
    exact alookup_map_self _ g.nodes u hu
  · rw [hres]
    exact hdv
  · rw [hres]
    exact hpv

/-- Witness for C2 on the two-node graph a -(1)-> b. -/
theorem C2_get_spt_shortest_paths_witness :
    ∃ spt dist sptu distu dv pv,
      get_spt (WGraph.mk [("a", [("b", 1)]), ("b", [])]) =
        some (.ok (spt, dist)) ∧
      alookup spt "a" = some sptu ∧ alookup dist "a" = some distu ∧
      alookup distu "b" = some dv ∧
      ShortestDist (WGraph.mk [("a", [("b", 1)]), ("b", [])]) "a" "b" dv ∧
      alookup sptu "b" = some pv ∧
      ∀ p, p ∈ pv ↔
        (IsPathFromTo (WGraph.mk [("a", [("b", 1)]), ("b", [])]) "a" "b"
            p ∧
          pathCost (WGraph.mk [("a", [("b", 1)]), ("b", [])]) p =
            some dv) :=
  C2_get_spt_shortest_paths (WGraph.mk [("a", [("b", 1)]), ("b", [])])
    (by unfold WGraph.WF; decide)
    (by
      intro x y w h
      simp only [WGraph.weight, WGraph.nbrs, alookup] at h
      by_cases hx : "a" = x
      · rw [if_pos hx] at h
        simp only [Option.getD_some, alookup] at h
        by_cases hy : "b" = y
        · rw [if_pos hy] at h
          obtain rfl : (1 : Int) = w := Option.some.inj h
          omega
        · rw [if_neg hy] at h
          exact absurd h (by simp)
      · rw [if_neg hx] at h
        by_cases hb : "b" = x
        · rw [if_pos hb] at h
          simp [alookup] at h
        · rw [if_neg hb] at h
          simp [alookup] at h)
    "a" "b" (by decide) ⟨["a", "b"], by unfold IsPathFromTo; decide⟩

/-! ### Negative edge weights: the ValueError path -/

theorem relaxAll_fringe_len (g : WGraph) (v : String) (d : Int)
    (dist : List (String × Int)) :
    ∀ (l seen : List (String × Int))
      (fringe : List (Int × Nat × String))
      (paths : List (String × List (List String))) (c : Nat)
      (s2 : List (String × Int)) (f2 : List (Int × Nat × String))
      (p2 : List (String × List (List String))) (c2 : Nat),
      relaxAll g v d dist l seen fringe paths c = .ok (s2, f2, p2, c2) →
      f2.length ≤ fringe.length + l.length := by
  intro l
  induction l with
  | nil =>
    intro seen fringe paths c s2 f2 p2 c2 h
    simp only [relaxAll, Except.ok.injEq, Prod.mk.injEq] at h
    obtain ⟨-, h2, -, -⟩ := h
    simp [← h2]
  | cons hd tl ih =>
    obtain ⟨w, wt⟩ := hd
    intro seen fringe paths c s2 f2 p2 c2 h
    simp only [relaxAll] at h
    split at h
    · exact absurd h (by simp)
    · split at h
      · have := ih _ _ _ _ _ _ _ _ h
        simp only [List.length_append, List.length_cons,
          List.length_nil] at this
        simp only [List.length_cons]
        omega
      · split at h
        · have := ih _ _ _ _ _ _ _ _ h
          simp only [List.length_append, List.length_cons,
            List.length_nil] at this
          simp only [List.length_cons]
          omega
        · split at h
          · have := ih _ _ _ _ _ _ _ _ h
            simp only [List.length_cons]
            omega
          · have := ih _ _ _ _ _ _ _ _ h
            simp only [List.length_cons]
            omega

theorem relaxAll_error (g : WGraph) (v : String) (d : Int)
    (dist : List (String × Int)) :
    ∀ (l seen : List (String × Int))
      (fringe : List (Int × Nat × String))
      (paths : List (String × List (List String))) (c : Nat),
      (∃ w wt, (w, wt) ∈ l ∧ d + wt < (alookup dist w).getD 0) →
      relaxAll g v d dist l seen fringe paths c = .error () := by
  intro l
  induction l with
  | nil =>
    intro seen fringe paths c h
    obtain ⟨w, wt, hm, -⟩ := h
    simp at hm
  | cons hd tl ih =>
    obtain ⟨w0, wt0⟩ := hd
    intro seen fringe paths c h
    obtain ⟨w, wt, hm, hlt⟩ := h
    by_cases hc : d + wt0 < (alookup dist w0).getD 0
    · simp only [relaxAll]
      rw [if_pos hc]
    · have hmem2 : (w, wt) ∈ tl := by
        rcases List.mem_cons.1 hm with he | he
        · exfalso
          injection he with h1 h2
          subst h1
          subst h2
          exact hc hlt
        · exact he
      simp only [relaxAll]
      rw [if_neg hc]
      split
      · exact ih _ _ _ _ ⟨w, wt, hmem2, hlt⟩
      · split
        · exact ih _ _ _ _ ⟨w, wt, hmem2, hlt⟩
        · split
          · exact ih _ _ _ _ ⟨w, wt, hmem2, hlt⟩
          · exact ih _ _ _ _ ⟨w, wt, hmem2, hlt⟩

/-- Fuel sufficiency of the main loop without any weight hypothesis:
the loop always returns a result (ok or error) on a well-formed
graph. -/
theorem sptLoop_some (g : WGraph) (hwf : g.WF) :
    ∀ (fuel : Nat) (fringe : List (Int × Nat × String))
      (dist seen : List (String × Int))
      (paths : List (String × List (List String))) (c : Nat),
      sptPhi g fringe dist < fuel →
      ∃ r, sptLoop g fuel fringe dist seen paths c = some r := by
  intro fuel
  induction fuel with
  | zero =>
    intro fringe dist seen paths c h
    omega
  | succ fuel ih =>
    intro fringe dist seen paths c hphi
    cases fringe with
    | nil => exact ⟨.ok (paths, dist), by simp [sptLoop, popMin]⟩
    | cons x xs =>
      obtain ⟨m, rest, hpop, hmem, hrest, hmin⟩ := popMin_spec x xs
      subst hrest
      obtain ⟨d, cnt, v⟩ := m
      cases hdist : alookup dist v with
      | some dv =>
        have hphi2 : sptPhi g ((x :: xs).erase (d, cnt, v)) dist < fuel := by
          have := phi_continue g dist (x :: xs) (d, cnt, v) hmem
          omega
        obtain ⟨r, hr⟩ := ih _ dist seen paths c hphi2
        refine ⟨r, ?_⟩
        rw [show sptLoop g (fuel + 1) (x :: xs) dist seen paths c =
            sptLoop g fuel ((x :: xs).erase (d, cnt, v)) dist seen paths c
            from by
          simp only [sptLoop, hpop, hdist, Option.isSome_some, if_true]]
        exact hr
      | none =>
        cases hrel : relaxAll g v d (aset dist v d) (g.nbrs v) seen
            ((x :: xs).erase (d, cnt, v)) paths c with
        | error e =>
          refine ⟨.error e, ?_⟩
          simp only [sptLoop, hpop, hdist, Option.isSome_none,
            Bool.false_eq_true, if_false, hrel]
        | ok tup =>
          obtain ⟨s2, f2, p2, c2⟩ := tup
          have hlen := relaxAll_fringe_len g v d (aset dist v d)
            (g.nbrs v) seen _ paths c s2 f2 p2 c2 hrel
          have hphi2 : sptPhi g f2 (aset dist v d) < fuel := by
            have := phi_settle g hwf v d dist hdist (x :: xs) f2
              (d, cnt, v) hmem hlen
            omega
          obtain ⟨r, hr⟩ := ih f2 (aset dist v d) s2 p2 c2 hphi2
          refine ⟨r, ?_⟩
          rw [show sptLoop g (fuel + 1) (x :: xs) dist seen paths c =
              sptLoop g fuel f2 (aset dist v d) s2 p2 c2 from by
            simp only [sptLoop, hpop, hdist, Option.isSome_none,
              Bool.false_eq_true, if_false, hrel]]
          exact hr

theorem spt_from_src_some (g : WGraph) (hwf : g.WF) (n : String) :
    ∃ r, spt_from_src g n = some r :=
  sptLoop_some g hwf (sptFuel g) [(0, 0, n)] [] [(n, 0)] [(n, [[n]])] 1
    (sptPhi_init g hwf n)

/-- The run sourced at the tail of a negative edge raises the
negative-metric ValueError. -/
theorem spt_from_src_neg (g : WGraph) (u v : String) (w : Int)
    (hneg : g.weight u v = some w) (hw : w < 0) :
    spt_from_src g u = some (.error ()) := by
  have hvm : (v, w) ∈ g.nbrs u := alookup_mem (g.nbrs u) v w hneg
  have hlt : (0 : Int) + w <
      (alookup (aset ([] : List (String × Int)) u 0) v).getD 0 := by
    by_cases huv : u = v
    · simp [aset, alookup, huv]
      omega
    · simp [aset, alookup, huv]
      omega
  have hrel := relaxAll_error g u 0 (aset ([] : List (String × Int)) u 0)
    (g.nbrs u) [(u, 0)] [] [(u, [[u]])] 1 ⟨v, w, hvm, hlt⟩
  have hpop : popMin [((0 : Int), (0 : Nat), u)] =
      some ((0, 0, u), []) := by
    simp [popMin]
  obtain ⟨M, hM⟩ : ∃ M, sptFuel g = M + 1 := ⟨_, rfl⟩
  show sptLoop g (sptFuel g) [(0, 0, u)] [] [(u, 0)] [(u, [[u]])] 1 =
    some (.error ())
  rw [hM]
  simp only [sptLoop, hpop, alookup, Option.isSome_none,
    Bool.false_eq_true, if_false, hrel]

/-- The source loop propagates the first per-source error. -/
theorem getSptLoop_error (g : WGraph) :
    ∀ (ns : List String)
      (spt : List (String × List (String × List (List String))))
      (dist : List (String × List (String × Int))) (u : String),
      u ∈ ns →
      (∀ n ∈ ns, ∃ r, spt_from_src g n = some r) →
      spt_from_src g u = some (.error ()) →
      ∃ e, getSptLoop g ns spt dist = some (.error e) := by
  intro ns
  induction ns with
  | nil =>
    intro spt dist u hu _ _
    simp at hu
  | cons n rest ih =>
    intro spt dist u hu hall huerr
    obtain ⟨r, hr⟩ := hall n (List.mem_cons_self _ _)
    cases r with
    | error e =>
      exact ⟨e, by simp only [getSptLoop, hr]⟩
    | ok pd =>
      obtain ⟨p, d⟩ := pd
      have hnu : n ≠ u := by
        intro he
        rw [he, huerr] at hr
        simp at hr
      have hu2 : u ∈ rest := by
        rcases List.mem_cons.1 hu with he | he
        · exact absurd he.symm hnu
        · exact he
      rw [show getSptLoop g (n :: rest) spt dist =
          getSptLoop g rest (spt ++ [(n, p)]) (dist ++ [(n, d)]) from by
        simp only [getSptLoop, hr]]
      exact ih (spt ++ [(n, p)]) (dist ++ [(n, d)]) u hu2
        (fun m hm => hall m (List.mem_cons_of_mem _ hm)) huerr

/-- C9: on a well-formed graph with a negative-weight edge, get_spt
never returns shortest-path trees: some Dijkstra run raises the
negative-metric ValueError, which propagates out of get_spt. -/
theorem C9_negative_weight_rejected (g : WGraph) (hwf : g.WF)
    (u v : String) (w : Int) (hneg : g.weight u v = some w)
    (hw : w < 0) :
    ∃ e, get_spt g = some (.error e) := by
  have hu_nodes : u ∈ g.nodes := by
    cases ha : alookup g.adj u with
    | none =>
      exfalso
      have : g.nbrs u = [] := by simp [WGraph.nbrs, ha]
      rw [show g.weight u v = alookup (g.nbrs u) v from rfl, this] at hneg
      simp [alookup] at hneg
    | some nb =>
      exact List.mem_map_of_mem Prod.fst (alookup_mem g.adj u nb ha)
  obtain ⟨e, he⟩ := getSptLoop_error g g.nodes [] [] u hu_nodes
    (fun n _ => spt_from_src_some g hwf n)
    (spt_from_src_neg g u v w hneg hw)
  exact ⟨e, he⟩

/-- Witness for C9 on the two-node graph a -(-1)-> b. -/
theorem C9_negative_weight_rejected_witness :
    ∃ e, get_spt (WGraph.mk [("a", [("b", -1)]), ("b", [])]) =
      some (.error e) :=
  C9_negative_weight_rejected
    (WGraph.mk [("a", [("b", -1)]), ("b", [])])
    (by unfold WGraph.WF; decide)
    "a" "b" (-1) (by decide) (by decide)

end Strb
